import Mathlib

/-!
Verification of the kvstore repository (Dynamo-style distributed key-value
store in Go) against its natural-language specification.

The Go code is shallowly embedded: Go maps become association lists (unique
keys is the Go map invariant, written as an explicit well-formedness
predicate where a proof needs it), Go int64 becomes Int, Go []byte becomes
List UInt8, wall-clock time becomes an explicit Nat parameter, and the
concurrent quorum fan-out becomes a pure function of the per-replica
outcomes (the Go engine joins on all outcomes before inspecting the counts,
so its observable result is exactly that function).
-/

namespace KV

/-! ## Vector clocks (internal/clock/clock.go) -/

/-- Go node identifier (opaque string). -/
abbrev NodeId := String

/-- Embedding of Go type clock.VectorClock = map[string]int64: an association
list from node id to counter.  Go map key uniqueness is the predicate vcWF
below. -/
abbrev VC := List (NodeId × Int)

/-- Keys of a vector clock (the Go map key set, in list form). -/
def vcKeys (vc : VC) : List NodeId := vc.map Prod.fst

/-- Well-formedness: a Go map never holds two bindings of one key. -/
abbrev vcWF (vc : VC) : Prop := (vcKeys vc).Nodup

/-- Positivity: every stored counter is at least 1.  Increment and Merge of
positive clocks only produce positive entries; an explicit zero entry can
only enter through a wire message. -/
abbrev vcPos (vc : VC) : Prop := ∀ e ∈ vc, 0 < e.2

/-- Embedding of Go (vc VectorClock).Get(nodeID): map read with zero default. -/
def vcGet (vc : VC) (k : NodeId) : Int := (List.lookup k vc).getD 0

/-- Embedding of the Go map assignment vc[nodeID] = value: replace the
binding if the key is present, otherwise add it. -/
def vcSet : VC → NodeId → Int → VC
  | [], k, v => [(k, v)]
  | (k', v') :: rest, k, v =>
    if k' = k then (k, v) :: rest else (k', v') :: vcSet rest k v

/-- Embedding of Go (vc VectorClock).Increment(nodeID): vc[nodeID]++. -/
def vcIncrement (vc : VC) (k : NodeId) : VC := vcSet vc k (vcGet vc k + 1)

/-- Embedding of Go (vc VectorClock).Merge(other): pointwise max, written as
the Go loop over the bindings of other.  Go map iteration order is
unspecified; every observation below (vcGet, length, vcEqual, vcCompare) is
invariant under it, so the list order stands in for it. -/
def vcMerge (vc other : VC) : VC :=
  other.foldl (fun acc e => if vcGet acc e.1 < e.2 then vcSet acc e.1 e.2 else acc) vc

/-- Embedding of Go (vc VectorClock).Equal(other): length check, then every
binding of the receiver matches a zero-defaulted read of the argument. -/
def vcEqual (a b : VC) : Bool :=
  a.length == b.length && a.all (fun e => vcGet b e.1 == e.2)

/-- Embedding of Go clock.CompareResult. -/
inductive CompareResult where
  | before
  | after
  | concurrent
  | equal
deriving DecidableEq, Repr

/-- Embedding of Go (vc VectorClock).Compare(other): Equal short-circuit,
then the union-of-keys scan setting thisLess / thisGreater. -/
def vcCompare (a b : VC) : CompareResult :=
  if vcEqual a b then .equal
  else
    let allNodes := (vcKeys a ++ vcKeys b).dedup
    let thisLess := allNodes.any (fun k => vcGet a k < vcGet b k)
    let thisGreater := allNodes.any (fun k => vcGet b k < vcGet a k)
    if thisLess && !thisGreater then .before
    else if thisGreater && !thisLess then .after
    else .concurrent

/-- Embedding of the Go map assignment m[k] = v for the other string-keyed
maps of the repository (stale map, node map, member map, incarnation map). -/
def mapSet {β : Type} : List (String × β) → String → β → List (String × β)
  | [], k, v => [(k, v)]
  | (k', v') :: rest, k, v =>
    if k' = k then (k, v) :: rest else (k', v') :: mapSet rest k v

/-- Embedding of protoToVectorClock on a non-nil message: fold Set over the
wire entries (internal/node/convert.go).  A nil message converts to a nil
clock, modelled as Option.none at the call sites. -/
def protoToVC (entries : List (String × Int)) : VC :=
  entries.foldl (fun acc e => vcSet acc e.1 e.2) []

/-! ## Reconciler (internal/repair/reconcile.go) -/

/-- Embedding of Go repair.VersionedValue. -/
structure VersionedValue where
  value : List UInt8
  version : VC
  deleted : Bool
deriving DecidableEq, Repr

/-- Embedding of Go repair.ReconcileResult; the Stale map is an association
list written by mapSet. -/
structure ReconcileResult where
  winners : List VersionedValue
  stale : List (String × VersionedValue)
deriving DecidableEq, Repr

/-- Placeholder replica id used by Reconcile when the id list does not match:
Go "replica-" + string(rune(i)). -/
def placeholderId (i : Nat) : String := "replica-" ++ String.mk [Char.ofNat i]

/-- Inner dominance scan of Reconcile: is the version at index i strictly
Before some other reply (Go skips j == i and breaks on the first hit). -/
def isDominatedAt (values : List VersionedValue) (i : Nat) (v : VersionedValue) : Bool :=
  values.enum.any (fun p => (p.1 != i) && (vcCompare v.version p.2.version == .before))

/-- Main loop of Reconcile over the indexed replies, carrying the winners
and stale accumulators exactly as the Go for-loop does. -/
def reconLoop (values : List VersionedValue) :
    List (Nat × VersionedValue × String) → List VersionedValue →
    List (String × VersionedValue) → ReconcileResult
  | [], ws, st => ⟨ws, st⟩
  | (i, v, rid) :: rest, ws, st =>
    if isDominatedAt values i v then reconLoop values rest ws (mapSet st rid v)
    else if ws.any (fun w => vcEqual v.version w.version) then reconLoop values rest ws st
    else reconLoop values rest (ws ++ [v]) st

/-- Embedding of Go repair.Reconcile. -/
def Reconcile (values : List VersionedValue) (replicaIDs : List String) : ReconcileResult :=
  if values.length = 0 then ⟨[], []⟩
  else
    let ids := if replicaIDs.length ≠ values.length
      then (List.range values.length).map placeholderId
      else replicaIDs
    reconLoop values (values.zip ids).enum [] []

/-- Domination predicate the reconciler decides: some reply's clock is
strictly After this one (equivalently, this clock is Before some reply). -/
def DomBy (values : List VersionedValue) (v : VersionedValue) : Prop :=
  ∃ u ∈ values, vcCompare v.version u.version = .before

/-- Embedding of Go (r *ReconcileResult).HasConflict. -/
def ReconcileResult.hasConflict (r : ReconcileResult) : Bool := decide (1 < r.winners.length)

/-- Embedding of Go (r *ReconcileResult).IsResolved. -/
def ReconcileResult.isResolved (r : ReconcileResult) : Bool := r.winners.length == 1

/-- Embedding of Go (r *ReconcileResult).IsNotFound. -/
def ReconcileResult.isNotFound (r : ReconcileResult) : Bool := r.winners.length == 0

/-! ## Local store (internal/storage/store.go) -/

/-- Embedding of Go storage.VersionedValue; ExpiresAt is a wall-clock
deadline in the model clock. -/
structure StoredValue where
  value : List UInt8
  version : VC
  deleted : Bool
  expiresAt : Option Nat
deriving DecidableEq, Repr

/-- Embedding of Go (vv *VersionedValue).IsExpired() at model time now. -/
def isExpired (now : Nat) (vv : StoredValue) : Bool :=
  match vv.expiresAt with
  | none => false
  | some t => t < now

/-- Embedding of Go storage.InMemoryStore (the mutex guards the map; the pure
model threads the state instead). -/
structure InMemoryStore where
  data : List (String × StoredValue)
  nodeID : String
deriving DecidableEq, Repr

/-- Embedding of Go (s *InMemoryStore).Get: nothing when absent or expired,
else the stored value (the Go defensive copy is the identity here, and the
background opportunistic delete of an expired entry does not change any
read result). -/
def storeGet (s : InMemoryStore) (now : Nat) (key : String) : Option StoredValue :=
  match List.lookup key s.data with
  | none => none
  | some vv => if isExpired now vv then none else some vv

/-- Embedding of Go (s *InMemoryStore).Put: copy the incoming clock (empty
when nil), merge with an unexpired existing clock, increment the local node
counter, store, return the new clock. -/
def storePut (s : InMemoryStore) (now : Nat) (key : String) (value : List UInt8)
    (version : Option VC) (deleted : Bool) : VC × InMemoryStore :=
  let v0 := match version with | none => ([] : VC) | some v => v
  let v1 := match List.lookup key s.data with
    | some existing => if isExpired now existing then v0 else vcMerge v0 existing.version
    | none => v0
  let newVersion := vcIncrement v1 s.nodeID
  let valueCopy := if deleted then ([] : List UInt8) else value
  (newVersion, { s with data := mapSet s.data key ⟨valueCopy, newVersion, deleted, none⟩ })

/-- Embedding of Go (s *InMemoryStore).PutRepair: fail on a nil clock, skip
silently unless the incoming clock is After or Equal to an unexpired stored
clock, else overwrite with the exact clock (no increment). -/
def storePutRepair (s : InMemoryStore) (now : Nat) (key : String) (value : List UInt8)
    (version : Option VC) (deleted : Bool) : Except String InMemoryStore :=
  match version with
  | none => .error "repair requires non-nil version"
  | some v =>
    let skip := match List.lookup key s.data with
      | some existing =>
        if isExpired now existing then false
        else
          let comp := vcCompare v existing.version
          decide (comp ≠ .after ∧ comp ≠ .equal)
      | none => false
    if skip then .ok s
    else .ok { s with
      data := mapSet s.data key ⟨(if deleted then [] else value), v, deleted, none⟩ }

/-- Embedding of Go (s *InMemoryStore).Delete: same clock computation as Put
and a tombstone with nil bytes is stored. -/
def storeDelete (s : InMemoryStore) (now : Nat) (key : String) (version : Option VC) :
    VC × InMemoryStore :=
  let v0 := match version with | none => ([] : VC) | some v => v
  let v1 := match List.lookup key s.data with
    | some existing => if isExpired now existing then v0 else vcMerge v0 existing.version
    | none => v0
  let newVersion := vcIncrement v1 s.nodeID
  (newVersion, { s with data := mapSet s.data key ⟨[], newVersion, true, none⟩ })

/-! ## Internal replica surface (internal/node/internal_server.go) -/

/-- Status of a ReplicaPut reply. -/
inductive ReplicaPutStatus where
  | success
  | error
deriving DecidableEq, Repr

/-- Embedding of the ReplicaPut reply message. -/
structure ReplicaPutResponse where
  status : ReplicaPutStatus
  errorMessage : String
deriving DecidableEq, Repr

/-- Embedding of Go (s *InternalServer).ReplicaPut.  The version argument is
the converted req.Version (none for a nil wire clock).  A repair request
routes to PutRepair; a non-repair request routes to Put (store and
increment). -/
def replicaPut (store : InMemoryStore) (now : Nat) (key : String) (value : List UInt8)
    (version : Option VC) (deleted : Bool) (isRepair : Bool) :
    ReplicaPutResponse × InMemoryStore :=
  if key = "" then (⟨.error, "key cannot be empty"⟩, store)
  else if isRepair then
    match storePutRepair store now key value version deleted with
    | .error msg => (⟨.error, msg⟩, store)
    | .ok s' => (⟨.success, ""⟩, s')
  else
    let r := storePut store now key value version deleted
    (⟨.success, ""⟩, r.2)

/-! ## Quorum engine (package quorum) -/

/-- Embedding of Go quorum.WriteResult. -/
structure WriteResult where
  success : Bool
  acks : Nat
  required : Nat
  replicas : Nat
  errorMessage : String
deriving DecidableEq, Repr

/-- Embedding of a value read from one replica (quorum.ReadValue; the
Version interface always holds a clock.VectorClock in this program). -/
structure ReadValue where
  value : List UInt8
  version : VC
  deleted : Bool
deriving DecidableEq, Repr

/-- Embedding of Go quorum.ReadResult. -/
structure ReadResult where
  success : Bool
  responses : Nat
  required : Nat
  replicas : Nat
  values : List ReadValue
  errorMessage : String
deriving DecidableEq, Repr

/-- Go default requiredW/requiredR: majority when the caller passes a
non-positive threshold. -/
def effectiveQuorum (required : Int) (n : Nat) : Int :=
  if required ≤ 0 then ((n / 2 : Nat) : Int) + 1 else required

/-- Diagnostic text of the W-exceeds-replicas failure. -/
def quorumExceedsWMsg (w : Int) (n : Nat) : String :=
  "required W=" ++ toString w ++ " exceeds replica count=" ++ toString n

/-- Diagnostic text of the R-exceeds-replicas failure. -/
def quorumExceedsRMsg (r : Int) (n : Nat) : String :=
  "required R=" ++ toString r ++ " exceeds replica count=" ++ toString n

/-- Base diagnostic text of an unmet write quorum (the optional suffix
listing up to three per-replica errors is abstracted away; no claim
concerns it). -/
def quorumNotMetWriteMsg (acks : Nat) (w : Int) (n : Nat) : String :=
  "quorum not met: acks=" ++ toString acks ++ " required=" ++ toString w ++
    " replicas=" ++ toString n

/-- Base diagnostic text of an unmet read quorum. -/
def quorumNotMetReadMsg (resp : Nat) (r : Int) (n : Nat) : String :=
  "quorum not met: responses=" ++ toString resp ++ " required=" ++ toString r ++
    " replicas=" ++ toString n

/-- Embedding of Go quorum.DoWrite as a function of the per-replica
outcomes.  The Go implementation launches one goroutine per replica and then
waits on wg.Wait() — the select has no threshold arm — so in every
non-cancelled run the returned record is exactly this function of the
complete outcome vector: acks counts the positive outcomes of all replicas. -/
def DoWrite (replicas : List String) (requiredW : Int) (writeFn : String → Bool) :
    WriteResult :=
  if replicas.length = 0 then ⟨false, 0, 0, 0, "no replicas provided"⟩
  else
    let w := effectiveQuorum requiredW replicas.length
    if (replicas.length : Int) < w then ⟨false, 0, 0, 0, quorumExceedsWMsg w replicas.length⟩
    else
      let acks := (replicas.filter writeFn).length
      if w ≤ (acks : Int) then ⟨true, acks, w.toNat, replicas.length, ""⟩
      else ⟨false, acks, w.toNat, replicas.length,
        quorumNotMetWriteMsg acks w replicas.length⟩

/-- Embedding of Go quorum.DoRead as a function of the per-replica outcomes
(none encodes a per-replica error, counted as a missing response); same
join-on-all structure as DoWrite. -/
def DoRead (replicas : List String) (requiredR : Int) (readFn : String → Option ReadValue) :
    ReadResult :=
  if replicas.length = 0 then ⟨false, 0, 0, 0, [], "no replicas provided"⟩
  else
    let r := effectiveQuorum requiredR replicas.length
    if (replicas.length : Int) < r then
      ⟨false, 0, 0, 0, [], quorumExceedsRMsg r replicas.length⟩
    else
      let vals := replicas.filterMap readFn
      if r ≤ (vals.length : Int) then ⟨true, vals.length, r.toNat, replicas.length, vals, ""⟩
      else ⟨false, vals.length, r.toNat, replicas.length, vals,
        quorumNotMetReadMsg vals.length r replicas.length⟩

/-! ## Ring (internal/ring/ring.go) -/

/-- Embedding of Go ring.Node. -/
structure RNode where
  id : String
  addr : String
deriving DecidableEq, Repr

/-- Embedding of a Go ring vnode (32-bit hash, owning node id). -/
structure Vnode where
  hash : Nat
  nodeID : String
deriving DecidableEq, Repr

/-- UTF-8 encoding of one code point (hash/fnv consumes the UTF-8 bytes of
the string). -/
def utf8Bytes (c : Char) : List Nat :=
  let n := c.toNat
  if n < 0x80 then [n]
  else if n < 0x800 then [0xC0 ||| (n >>> 6), 0x80 ||| (n &&& 0x3F)]
  else if n < 0x10000 then
    [0xE0 ||| (n >>> 12), 0x80 ||| ((n >>> 6) &&& 0x3F), 0x80 ||| (n &&& 0x3F)]
  else
    [0xF0 ||| (n >>> 18), 0x80 ||| ((n >>> 12) &&& 0x3F),
     0x80 ||| ((n >>> 6) &&& 0x3F), 0x80 ||| (n &&& 0x3F)]

/-- Embedding of (r *Ring).hashString: 32-bit FNV-1a over the UTF-8 bytes. -/
def fnv32a (s : String) : Nat :=
  (s.data.flatMap utf8Bytes).foldl (fun h b => ((h ^^^ b) * 16777619) % 4294967296) 2166136261

/-- Embedding of Go ring.Ring (reader side of the RCU snapshot). -/
structure GoRing where
  vnodesPerNode : Nat
  vnodes : List Vnode
  nodes : List (String × RNode)
deriving Repr

/-- Embedding of Go ring.NewRing (non-positive argument falls back to 128). -/
def NewRing (v : Int) : GoRing :=
  ⟨if v ≤ 0 then 128 else v.toNat, [], []⟩

/-- Virtual nodes generated for one member: hash of id ++ "-vnode-" ++ i. -/
def genVnodes (vn : Nat) (n : RNode) : List Vnode :=
  (List.range vn).map (fun i => ⟨fnv32a (n.id ++ "-vnode-" ++ toString i), n.id⟩)

/-- Embedding of Go (r *Ring).SetNodes: rebuild the id map, emit the vnodes
of every member in input order, and sort by hash ascending (Go uses
sort.Slice; a sort is modelled by mergeSort — on hash-distinct inputs the
sorted sequence is unique, and every theorem below relies only on
sortedness and the multiset of entries). -/
def SetNodes (r : GoRing) (nodes : List RNode) : GoRing :=
  { r with
    nodes := nodes.foldl (fun acc n => mapSet acc n.id n) [],
    vnodes := (nodes.flatMap (genVnodes r.vnodesPerNode)).mergeSort
      (fun a b => a.hash ≤ b.hash) }

/-- Ring construction as every caller performs it: NewRing then SetNodes. -/
def buildRing (v : Int) (nodes : List RNode) : GoRing := SetNodes (NewRing v) nodes

/-- Walk of the ring in PreferenceList: visit vnodes in order, collect the
first occurrence of each owner until k distinct members are found (the Go
loop guards on len(result) < k and records every visited owner in seen). -/
def collectOwners (nodesMap : List (String × RNode)) (k : Nat) :
    List Vnode → List String → List RNode → List RNode
  | [], _, result => result
  | v :: rest, seen, result =>
    if result.length < k then
      if seen.contains v.nodeID then collectOwners nodesMap k rest seen result
      else
        match List.lookup v.nodeID nodesMap with
        | some n => collectOwners nodesMap k rest (v.nodeID :: seen) (result ++ [n])
        | none => collectOwners nodesMap k rest (v.nodeID :: seen) result
    else result

/-- Count of the distinct owner ids a walk sees beyond the seen set,
threading seen exactly as collectOwners does (a specification-side measure
used in the length theorem for the preference list). -/
def distinctNew : List Vnode → List String → Nat
  | [], _ => 0
  | v :: rest, seen =>
    if seen.contains v.nodeID then distinctNew rest seen
    else 1 + distinctNew rest (v.nodeID :: seen)

/-- Embedding of Go (r *Ring).PreferenceList.  sort.Search on the sorted
vnode array returns the first index whose hash is at least the key hash
(findIdx on the sorted list), wrapping to 0; the walk over positions
(idx + i) mod len is the rotation of the vnode list at idx. -/
def PreferenceList (r : GoRing) (key : String) (k : Nat) : List RNode :=
  if r.vnodes.length = 0 ∨ k = 0 then []
  else
    let keyHash := fnv32a key
    let idx0 := r.vnodes.findIdx (fun v => keyHash ≤ v.hash)
    let idx := if r.vnodes.length ≤ idx0 then 0 else idx0
    collectOwners r.nodes k (r.vnodes.rotate idx) [] []

/-- Embedding of replication.GetReplicasForKey. -/
def GetReplicasForKey (r : GoRing) (key : String) (replicationFactor : Int) : List RNode :=
  PreferenceList r key (if replicationFactor ≤ 0 then 3 else replicationFactor.toNat)

/-! ## Gossip membership (package gossip) -/

/-- Embedding of Go gossip.MemberStatus. -/
inductive MemberStatus where
  | alive
  | suspect
  | dead
deriving DecidableEq, Repr

/-- Embedding of Go gossip.Member. -/
structure GMember where
  id : String
  addr : String
  status : MemberStatus
  incarnation : Nat
  lastSeen : Nat
deriving DecidableEq, Repr

/-- Embedding of the state of Go gossip.Membership that the merge rules
read and write. -/
structure Membership where
  localID : String
  localAddr : String
  members : List (String × GMember)
  incarnation : List (String × Nat)
deriving DecidableEq, Repr

/-- Embedding of Go gossip.shouldUpdateStatus: at equal incarnations prefer
Alive over Suspect over Dead. -/
def shouldUpdateStatus (localSt remoteSt : MemberStatus) : Bool :=
  if remoteSt = .alive ∧ localSt ≠ .alive then true
  else if remoteSt = .suspect ∧ localSt = .dead then true
  else false

/-- Merge of one incoming member record, the body of the ApplyGossip loop:
skip self, insert unknown ids, overwrite on strictly greater incarnation,
apply the status preference at equal incarnation, ignore lower. -/
def applyGossipRecord (m : Membership) (now : Nat) (remote : GMember) : Membership :=
  if remote.id = m.localID then m
  else
    match List.lookup remote.id m.members with
    | none =>
      { m with
        members := mapSet m.members remote.id
          ⟨remote.id, remote.addr, remote.status, remote.incarnation, now⟩,
        incarnation := mapSet m.incarnation remote.id remote.incarnation }
    | some lm =>
      if lm.incarnation < remote.incarnation then
        { m with
          members := mapSet m.members remote.id
            { lm with
              status := remote.status, incarnation := remote.incarnation, lastSeen := now },
          incarnation := mapSet m.incarnation remote.id remote.incarnation }
      else if remote.incarnation = lm.incarnation then
        if shouldUpdateStatus lm.status remote.status then
          { m with
            members := mapSet m.members remote.id
              { lm with status := remote.status, lastSeen := now } }
        else m
      else m

/-- Embedding of Go (m *Membership).ApplyGossip (the changed flag only
feeds the ring-rebuild callback, outside these claims). -/
def ApplyGossip (m : Membership) (now : Nat) (remotes : List GMember) : Membership :=
  remotes.foldl (fun acc r => applyGossipRecord acc now r) m

/-- Embedding of Go (m *Membership).MarkAlive, called by the Ping handler on
the sender id: any existing member, whatever its status, becomes Alive. -/
def MarkAlive (m : Membership) (now : Nat) (id : String) : Membership :=
  match List.lookup id m.members with
  | none => m
  | some member =>
    if member.status ≠ .alive then
      { m with
        members := mapSet m.members id { member with status := .alive, lastSeen := now } }
    else
      { m with members := mapSet m.members id { member with lastSeen := now } }

/-- Embedding of the membership server Ping handler (gossip/server.go): mark
the sender alive, then merge any piggybacked membership. -/
def PingHandler (m : Membership) (now : Nat) (fromId : String)
    (memsReceived : List GMember) : Membership :=
  let m1 := MarkAlive m now fromId
  if 0 < memsReceived.length then ApplyGossip m1 now memsReceived else m1

/-! ## Replication coordinator (internal/node/server_quorum.go) and read
repairer (internal/repair, ReadRepairer) -/

/-- Status of a client Get reply. -/
inductive GetStatus where
  | success
  | notFound
  | error
deriving DecidableEq, Repr

/-- Embedding of the client GetResponse. -/
structure GetResponse where
  status : GetStatus
  value : Option VersionedValue
  conflicts : List VersionedValue
  errorMessage : String
deriving DecidableEq, Repr

/-- Status of a client Delete reply (the wire enum carries NOT_FOUND as
well, which the quorum Delete never produces). -/
inductive DeleteStatus where
  | success
  | notFound
  | error
deriving DecidableEq, Repr

/-- Embedding of the client DeleteResponse. -/
structure DeleteResponse where
  status : DeleteStatus
  version : Option VC
  errorMessage : String
deriving DecidableEq, Repr

/-- One ReplicaPut RPC that the read repairer issues. -/
structure RepairRPC where
  addr : String
  key : String
  value : List UInt8
  version : VC
  deleted : Bool
  isRepair : Bool
deriving DecidableEq, Repr

/-- Embedding of the RPCs performed by (r *ReadRepairer).Repair
(src/unnamed/part_002): nothing when the stale map is empty, else one
exact-clock ReplicaPut of the first winner per addressable stale replica
(is_repair = true). -/
def repairRPCs (key : String) (winners : List VersionedValue)
    (stale : List (String × VersionedValue))
    (replicaIDToAddr : List (String × String)) : List RepairRPC :=
  if stale.length = 0 then []
  else
    stale.filterMap (fun p =>
      match List.lookup p.1 replicaIDToAddr with
      | none => none
      | some addr =>
        match winners.head? with
        | some w => some ⟨addr, key, w.value, w.version, w.deleted, true⟩
        | none => none)

/-- Post-quorum processing of the coordinator Get (server_quorum.go after
the DoRead call), paired with the list of repair calls the handler hands to
the read repairer.  The source computes reconcileResult and answers the
client from it; it never invokes Server.readRepairer, so the second
component is the empty list on every path. -/
def getPostQuorum (key : String) (replicas : List RNode) (values : List ReadValue) :
    GetResponse × List RepairRPC :=
  if values.length = 0 then (⟨.notFound, none, [], ""⟩, [])
  else
    let repairValues := values.map
      (fun rv => (⟨rv.value, rv.version, rv.deleted⟩ : VersionedValue))
    let replicaIDs := (List.range values.length).map (fun i =>
      match replicas.get? i with
      | some n => n.id
      | none => "replica-" ++ toString i)
    let rres := Reconcile repairValues replicaIDs
    if rres.isNotFound then (⟨.notFound, none, [], ""⟩, [])
    else if rres.isResolved then
      let winner := rres.winners.headD ⟨[], [], false⟩
      if winner.deleted then (⟨.notFound, none, [], ""⟩, [])
      else (⟨.success, some winner, [], ""⟩, [])
    else (⟨.success, none, rres.winners, ""⟩, [])

/-- Coordinator clock for Put and Delete: the client version context (empty
when absent) with the coordinator's own counter incremented; no merge with
local replica state. -/
def coordinatorNewVersion (nodeID : String) (reqVersion : Option VC) : VC :=
  vcIncrement (match reqVersion with | none => ([] : VC) | some v => v) nodeID

/-- Embedding of the coordinator Delete (server_quorum.go): validate the
key, resolve the quorum, fetch the preference list, build the new clock,
fan out tombstone writes through DoWrite (ack abstracts each per-replica
outcome), and answer from the quorum result. -/
def serverDelete (nodeID : String) (replicationFactor : Int) (defaultW : Nat)
    (ring : GoRing) (key : String) (consistencyW : Int) (reqVersion : Option VC)
    (ack : String → Bool) : DeleteResponse :=
  if key = "" then ⟨.error, none, "key cannot be empty"⟩
  else
    let rf := if replicationFactor ≤ 0 then 3 else replicationFactor
    let requiredW : Int := if consistencyW ≤ 0 then (defaultW : Int) else consistencyW
    let replicas := GetReplicasForKey ring key rf
    if replicas.length = 0 then ⟨.error, none, "no replicas available"⟩
    else
      let newVersion := coordinatorNewVersion nodeID reqVersion
      let result := DoWrite (replicas.map (fun r => r.addr)) requiredW ack
      if result.success then ⟨.success, some newVersion, ""⟩
      else ⟨.error, none, result.errorMessage⟩

/-! ### Basic lemmas about the vector-clock operations -/

theorem lookup_cons_ne {k k₀ : NodeId} (h : k ≠ k₀) (v₀ : Int) (rest : VC) :
    List.lookup k ((k₀, v₀) :: rest) = List.lookup k rest := by
  have hbeq : (k == k₀) = false := by simp [h]
  simp [List.lookup, hbeq]

theorem lookup_cons_self (k : NodeId) (v₀ : Int) (rest : VC) :
    List.lookup k ((k, v₀) :: rest) = some v₀ := by
  simp [List.lookup]

theorem mem_of_lookup_some {vc : VC} {k : NodeId} {c : Int}
    (h : List.lookup k vc = some c) : (k, c) ∈ vc := by
  induction vc with
  | nil => simp [List.lookup] at h
  | cons e rest ih =>
    obtain ⟨k₀, v₀⟩ := e
    by_cases hk : k = k₀
    · subst hk
      rw [lookup_cons_self] at h
      cases h
      exact List.mem_cons_self _ _
    · rw [lookup_cons_ne hk] at h
      exact List.mem_cons_of_mem _ (ih h)

theorem vcGet_vcSet (vc : VC) (k : NodeId) (v : Int) (k' : NodeId) :
    vcGet (vcSet vc k v) k' = if k' = k then v else vcGet vc k' := by
  induction vc with
  | nil =>
    by_cases h : k' = k
    · subst h; simp [vcSet, vcGet, lookup_cons_self]
    · have hbeq : (k' == k) = false := by simp [h]
      simp [vcSet, vcGet, List.lookup, hbeq, h]
  | cons e rest ih =>
    obtain ⟨k₀, v₀⟩ := e
    simp only [vcSet]
    by_cases h0 : k₀ = k
    · simp only [if_pos h0]
      subst h0
      by_cases h : k' = k₀
      · subst h; simp [vcGet, lookup_cons_self]
      · simp [vcGet, lookup_cons_ne h, h]
    · simp only [if_neg h0]
      by_cases h : k' = k₀
      · subst h
        simp [vcGet, lookup_cons_self, h0]
      · simp only [vcGet, lookup_cons_ne h]
        exact ih

theorem vcGet_vcIncrement (vc : VC) (k k' : NodeId) :
    vcGet (vcIncrement vc k) k' = if k' = k then vcGet vc k + 1 else vcGet vc k' := by
  simp [vcIncrement, vcGet_vcSet]

theorem vcGet_nonneg {vc : VC} (h : vcPos vc) (k : NodeId) : 0 ≤ vcGet vc k := by
  unfold vcGet
  cases hl : List.lookup k vc with
  | none => simp
  | some c => simpa using le_of_lt (h _ (mem_of_lookup_some hl))

theorem vcGet_eq_zero_of_not_mem {vc : VC} {k : NodeId} (h : k ∉ vcKeys vc) :
    vcGet vc k = 0 := by
  unfold vcGet
  cases hl : List.lookup k vc with
  | none => simp
  | some c =>
    exact absurd (List.mem_map_of_mem Prod.fst (mem_of_lookup_some hl)) h

theorem mem_keys_of_vcGet_ne {vc : VC} {k : NodeId} (h : vcGet vc k ≠ 0) :
    k ∈ vcKeys vc := by
  by_contra hk
  exact h (vcGet_eq_zero_of_not_mem hk)

theorem lookup_eq_some_of_mem {vc : VC} (hwf : vcWF vc) {k : NodeId} {c : Int}
    (h : (k, c) ∈ vc) : List.lookup k vc = some c := by
  induction vc with
  | nil => cases h
  | cons e rest ih =>
    obtain ⟨k₀, c₀⟩ := e
    have hwf' := List.nodup_cons.mp hwf
    rcases List.mem_cons.mp h with heq | hmem
    · cases heq
      exact lookup_cons_self _ _ _
    · have hk : k ≠ k₀ := by
        intro hh
        exact hwf'.1 (hh ▸ List.mem_map.mpr ⟨(k, c), hmem, rfl⟩)
      rw [lookup_cons_ne hk]
      exact ih hwf'.2 hmem

theorem vcGet_of_mem {vc : VC} (hwf : vcWF vc) {k : NodeId} {c : Int}
    (h : (k, c) ∈ vc) : vcGet vc k = c := by
  simp [vcGet, lookup_eq_some_of_mem hwf h]

theorem lookup_isSome_of_mem_keys {vc : VC} {k : NodeId} (h : k ∈ vcKeys vc) :
    ∃ c, List.lookup k vc = some c := by
  induction vc with
  | nil => cases h
  | cons e rest ih =>
    obtain ⟨k₀, v₀⟩ := e
    by_cases hk : k = k₀
    · subst hk; exact ⟨v₀, lookup_cons_self _ _ _⟩
    · rw [lookup_cons_ne hk]
      apply ih
      rcases (by simpa [vcKeys] using h : k = k₀ ∨ k ∈ vcKeys rest) with h' | h'
      · exact absurd h' hk
      · exact h'

theorem vcGet_pos_of_mem {vc : VC} (hp : vcPos vc) {k : NodeId}
    (h : k ∈ vcKeys vc) : 0 < vcGet vc k := by
  obtain ⟨c, hl⟩ := lookup_isSome_of_mem_keys h
  have := hp _ (mem_of_lookup_some hl)
  simpa [vcGet, hl] using this

theorem mem_keys_iff_pos {vc : VC} (hp : vcPos vc) (k : NodeId) :
    k ∈ vcKeys vc ↔ 0 < vcGet vc k := by
  constructor
  · exact vcGet_pos_of_mem hp
  · intro h
    exact mem_keys_of_vcGet_ne (by omega)

/-! ### Characterization of Equal and Compare on well-formed positive clocks

Go's Equal compares lengths and then reads the second map at the first map's
keys, so on maps that carry explicit zero entries it disagrees with the
pointwise zero-filled comparison (see the C6 counterexample).  On clocks
whose stored counters are all positive, the two notions coincide, and the
following lemmas record the standard happens-before reading of Compare. -/

theorem vcEqual_true_parts {a b : VC} (h : vcEqual a b = true) :
    a.length = b.length ∧ ∀ k c, (k, c) ∈ a → vcGet b k = c := by
  simp only [vcEqual, Bool.and_eq_true, beq_iff_eq, List.all_eq_true] at h
  exact ⟨h.1, fun k c hm => by simpa using h.2 (k, c) hm⟩

theorem vcEqual_of_parts {a b : VC} (hlen : a.length = b.length)
    (hall : ∀ k c, (k, c) ∈ a → vcGet b k = c) : vcEqual a b = true := by
  simp only [vcEqual, Bool.and_eq_true, beq_iff_eq, List.all_eq_true]
  exact ⟨hlen, fun e he => by simpa using hall e.1 e.2 he⟩

theorem vcEqual_iff_pointwise {a b : VC} (hwa : vcWF a) (hwb : vcWF b)
    (hpa : vcPos a) (hpb : vcPos b) :
    vcEqual a b = true ↔ ∀ k, vcGet a k = vcGet b k := by
  constructor
  · intro h
    obtain ⟨hlen, hall⟩ := vcEqual_true_parts h
    have hsub : (vcKeys a).toFinset ⊆ (vcKeys b).toFinset := by
      intro k hk
      simp only [List.mem_toFinset] at hk ⊢
      obtain ⟨⟨k', c⟩, hm, hke⟩ := List.mem_map.mp hk
      subst hke
      have hb : vcGet b k' = c := hall k' c hm
      exact mem_keys_of_vcGet_ne (by have := hpa _ hm; simp only at hb ⊢; omega)
    have hcards : (vcKeys b).toFinset.card ≤ (vcKeys a).toFinset.card := by
      rw [List.toFinset_card_of_nodup hwa, List.toFinset_card_of_nodup hwb]
      simp [vcKeys, hlen]
    have hfe : (vcKeys a).toFinset = (vcKeys b).toFinset :=
      Finset.eq_of_subset_of_card_le hsub hcards
    intro k
    by_cases hk : k ∈ vcKeys a
    · obtain ⟨⟨k', c⟩, hm, hke⟩ := List.mem_map.mp hk
      subst hke
      rw [vcGet_of_mem hwa hm, hall k' c hm]
    · have hkb : k ∉ vcKeys b := by
        intro hkb
        exact hk (by
          have := hfe ▸ (List.mem_toFinset.mpr hkb)
          exact List.mem_toFinset.mp this)
      rw [vcGet_eq_zero_of_not_mem hk, vcGet_eq_zero_of_not_mem hkb]
  · intro h
    have hfe : (vcKeys a).toFinset = (vcKeys b).toFinset := by
      ext k
      simp only [List.mem_toFinset]
      rw [mem_keys_iff_pos hpa, mem_keys_iff_pos hpb, h k]
    have hlen : a.length = b.length := by
      have ha := List.toFinset_card_of_nodup hwa
      have hb := List.toFinset_card_of_nodup hwb
      have : (vcKeys a).length = (vcKeys b).length := by rw [← ha, ← hb, hfe]
      simpa [vcKeys] using this
    refine vcEqual_of_parts hlen (fun k c hm => ?_)
    rw [← h k]
    exact vcGet_of_mem hwa hm

theorem vcEqual_refl {a : VC} (hwa : vcWF a) : vcEqual a a = true :=
  vcEqual_of_parts rfl (fun _ _ hm => vcGet_of_mem hwa hm)

theorem not_mem_union_get_zero {a b : VC} {k : NodeId}
    (h : k ∉ (vcKeys a ++ vcKeys b).dedup) : vcGet a k = 0 ∧ vcGet b k = 0 := by
  rw [List.mem_dedup, List.mem_append] at h
  push_neg at h
  exact ⟨vcGet_eq_zero_of_not_mem h.1, vcGet_eq_zero_of_not_mem h.2⟩

theorem thisLess_iff {a b : VC} (hpa : vcPos a) :
    ((vcKeys a ++ vcKeys b).dedup.any (fun k => decide (vcGet a k < vcGet b k)) = true)
      ↔ ∃ k, vcGet a k < vcGet b k := by
  rw [List.any_eq_true]
  constructor
  · rintro ⟨k, _, hk⟩
    exact ⟨k, by simpa using hk⟩
  · rintro ⟨k, hk⟩
    have hnn : 0 ≤ vcGet a k := vcGet_nonneg hpa k
    have : k ∈ vcKeys b := mem_keys_of_vcGet_ne (by omega)
    exact ⟨k, by simp [List.mem_dedup, this], by simpa using hk⟩

/-- Unfolding of vcCompare in the not-Equal case, with the let bindings of
the source inlined. -/
theorem vcCompare_of_not_equal {a b : VC} (h : vcEqual a b = false) :
    vcCompare a b =
      (if ((vcKeys a ++ vcKeys b).dedup.any (fun k => vcGet a k < vcGet b k))
          && !((vcKeys a ++ vcKeys b).dedup.any (fun k => vcGet b k < vcGet a k)) then .before
       else if ((vcKeys a ++ vcKeys b).dedup.any (fun k => vcGet b k < vcGet a k))
          && !((vcKeys a ++ vcKeys b).dedup.any (fun k => vcGet a k < vcGet b k)) then .after
       else .concurrent) := by
  simp only [vcCompare, h, Bool.false_eq_true, if_false]

theorem vcCompare_eq_equal_iff {a b : VC} (hwa : vcWF a) (hwb : vcWF b)
    (hpa : vcPos a) (hpb : vcPos b) :
    vcCompare a b = .equal ↔ ∀ k, vcGet a k = vcGet b k := by
  constructor
  · intro h
    cases he : vcEqual a b with
    | true => exact (vcEqual_iff_pointwise hwa hwb hpa hpb).mp he
    | false =>
      rw [vcCompare_of_not_equal he] at h
      split at h
      · cases h
      · split at h
        · cases h
        · cases h
  · intro h
    have he : vcEqual a b = true := (vcEqual_iff_pointwise hwa hwb hpa hpb).mpr h
    simp [vcCompare, he]

theorem vcCompare_eq_before_iff {a b : VC} (hwa : vcWF a) (hwb : vcWF b)
    (hpa : vcPos a) (hpb : vcPos b) :
    vcCompare a b = .before ↔
      (∀ k, vcGet a k ≤ vcGet b k) ∧ ∃ k, vcGet a k < vcGet b k := by
  constructor
  · intro h
    cases he : vcEqual a b with
    | true => simp [vcCompare, he] at h
    | false =>
      rw [vcCompare_of_not_equal he] at h
      split at h
      · rename_i hcond
        rw [Bool.and_eq_true, Bool.not_eq_true', List.any_eq_false] at hcond
        obtain ⟨hless, hgreat⟩ := hcond
        constructor
        · intro k
          by_cases hk : k ∈ (vcKeys a ++ vcKeys b).dedup
          · have hg := hgreat k hk
            have : ¬ (vcGet b k < vcGet a k) := by simpa using hg
            omega
          · obtain ⟨h1, h2⟩ := not_mem_union_get_zero hk
            omega
        · have := List.any_eq_true.mp hless
          obtain ⟨k, _, hk⟩ := this
          exact ⟨k, by simpa using hk⟩
      · split at h
        · cases h
        · cases h
  · rintro ⟨hle, k₀, hlt⟩
    have he : vcEqual a b = false := by
      cases he : vcEqual a b with
      | false => rfl
      | true =>
        have := (vcEqual_iff_pointwise hwa hwb hpa hpb).mp he k₀
        omega
    rw [vcCompare_of_not_equal he]
    have hL : ((vcKeys a ++ vcKeys b).dedup.any (fun k => vcGet a k < vcGet b k)) = true := by
      have hb : k₀ ∈ vcKeys b :=
        mem_keys_of_vcGet_ne (by have := vcGet_nonneg hpa k₀; omega)
      exact List.any_eq_true.mpr ⟨k₀, by simp [List.mem_dedup, hb], by simpa using hlt⟩
    have hG : ((vcKeys a ++ vcKeys b).dedup.any (fun k => vcGet b k < vcGet a k)) = false := by
      rw [List.any_eq_false]
      intro k _
      simpa using not_lt.mpr (hle k)
    rw [hL, hG]
    rfl

theorem vcCompare_eq_after_iff {a b : VC} (hwa : vcWF a) (hwb : vcWF b)
    (hpa : vcPos a) (hpb : vcPos b) :
    vcCompare a b = .after ↔
      (∀ k, vcGet b k ≤ vcGet a k) ∧ ∃ k, vcGet b k < vcGet a k := by
  constructor
  · intro h
    cases he : vcEqual a b with
    | true => simp [vcCompare, he] at h
    | false =>
      rw [vcCompare_of_not_equal he] at h
      split at h
      · cases h
      · split at h
        · rename_i hcond
          rw [Bool.and_eq_true, Bool.not_eq_true', List.any_eq_false] at hcond
          obtain ⟨hgreat, hless⟩ := hcond
          constructor
          · intro k
            by_cases hk : k ∈ (vcKeys a ++ vcKeys b).dedup
            · have hl' := hless k hk
              have : ¬ (vcGet a k < vcGet b k) := by simpa using hl'
              omega
            · obtain ⟨h1, h2⟩ := not_mem_union_get_zero hk
              omega
          · obtain ⟨k, _, hk⟩ := List.any_eq_true.mp hgreat
            exact ⟨k, by simpa using hk⟩
        · cases h
  · rintro ⟨hle, k₀, hlt⟩
    have he : vcEqual a b = false := by
      cases he : vcEqual a b with
      | false => rfl
      | true =>
        have := (vcEqual_iff_pointwise hwa hwb hpa hpb).mp he k₀
        omega
    rw [vcCompare_of_not_equal he]
    have hG : ((vcKeys a ++ vcKeys b).dedup.any (fun k => vcGet b k < vcGet a k)) = true := by
      have ha : k₀ ∈ vcKeys a :=
        mem_keys_of_vcGet_ne (by have := vcGet_nonneg hpb k₀; omega)
      exact List.any_eq_true.mpr ⟨k₀, by simp [List.mem_dedup, ha], by simpa using hlt⟩
    have hL : ((vcKeys a ++ vcKeys b).dedup.any (fun k => vcGet a k < vcGet b k)) = false := by
      rw [List.any_eq_false]
      intro k _
      simpa using not_lt.mpr (hle k)
    rw [hL, hG]
    rfl

theorem vcCompare_self {a : VC} (hwa : vcWF a) : vcCompare a a = .equal := by
  simp [vcCompare, vcEqual_refl hwa]

theorem before_trans {a b c : VC} (hwa : vcWF a) (hwb : vcWF b) (hwc : vcWF c)
    (hpa : vcPos a) (hpb : vcPos b) (hpc : vcPos c)
    (h1 : vcCompare a b = .before) (h2 : vcCompare b c = .before) :
    vcCompare a c = .before := by
  obtain ⟨hle1, k₁, hlt1⟩ := (vcCompare_eq_before_iff hwa hwb hpa hpb).mp h1
  obtain ⟨hle2, k₂, hlt2⟩ := (vcCompare_eq_before_iff hwb hwc hpb hpc).mp h2
  refine (vcCompare_eq_before_iff hwa hwc hpa hpc).mpr ⟨fun k => le_trans (hle1 k) (hle2 k), k₁, ?_⟩
  have := hle2 k₁
  omega

theorem before_irrefl {a : VC} (hwa : vcWF a) : vcCompare a a ≠ .before := by
  rw [vcCompare_self hwa]
  intro h
  cases h

theorem before_of_before_of_equal {a b c : VC} (hwa : vcWF a) (hwb : vcWF b)
    (hwc : vcWF c) (hpa : vcPos a) (hpb : vcPos b) (hpc : vcPos c)
    (h1 : vcCompare a b = .before) (h2 : vcEqual b c = true) :
    vcCompare a c = .before := by
  obtain ⟨hle1, k₁, hlt1⟩ := (vcCompare_eq_before_iff hwa hwb hpa hpb).mp h1
  have hpt := (vcEqual_iff_pointwise hwb hwc hpb hpc).mp h2
  refine (vcCompare_eq_before_iff hwa hwc hpa hpc).mpr
    ⟨fun k => (hpt k) ▸ hle1 k, k₁, (hpt k₁) ▸ hlt1⟩

theorem vcEqual_symm {a b : VC} (hwa : vcWF a) (hwb : vcWF b)
    (hpa : vcPos a) (hpb : vcPos b) (h : vcEqual a b = true) :
    vcEqual b a = true := by
  rw [vcEqual_iff_pointwise hwb hwa hpb hpa]
  intro k
  exact ((vcEqual_iff_pointwise hwa hwb hpa hpb).mp h k).symm

theorem vcCompare_cases (a b : VC) :
    vcCompare a b = .before ∨ vcCompare a b = .after ∨
    vcCompare a b = .concurrent ∨ vcCompare a b = .equal := by
  cases h : vcCompare a b with
  | before => exact Or.inl rfl
  | after => exact Or.inr (Or.inl rfl)
  | concurrent => exact Or.inr (Or.inr (Or.inl rfl))
  | equal => exact Or.inr (Or.inr (Or.inr rfl))

theorem vcGet_nil (k : NodeId) : vcGet ([] : VC) k = 0 := by
  simp [vcGet, List.lookup]

theorem vcCompare_eq_concurrent_iff {a b : VC} (hwa : vcWF a) (hwb : vcWF b)
    (hpa : vcPos a) (hpb : vcPos b) :
    vcCompare a b = .concurrent ↔
      (∃ k, vcGet a k < vcGet b k) ∧ (∃ k, vcGet b k < vcGet a k) := by
  constructor
  · intro h
    cases he : vcEqual a b with
    | true => simp [vcCompare, he] at h
    | false =>
      rw [vcCompare_of_not_equal he] at h
      by_cases hL : ((vcKeys a ++ vcKeys b).dedup.any (fun k => vcGet a k < vcGet b k)) = true
      · by_cases hG : ((vcKeys a ++ vcKeys b).dedup.any (fun k => vcGet b k < vcGet a k)) = true
        · obtain ⟨k₁, _, hk₁⟩ := List.any_eq_true.mp hL
          obtain ⟨k₂, _, hk₂⟩ := List.any_eq_true.mp hG
          exact ⟨⟨k₁, by simpa using hk₁⟩, ⟨k₂, by simpa using hk₂⟩⟩
        · rw [hL, Bool.eq_false_iff.mpr hG] at h
          simp at h
      · by_cases hG : ((vcKeys a ++ vcKeys b).dedup.any (fun k => vcGet b k < vcGet a k)) = true
        · rw [hG, Bool.eq_false_iff.mpr hL] at h
          simp at h
        · exfalso
          have hpt : ∀ k, vcGet a k = vcGet b k := by
            intro k
            by_cases hk : k ∈ (vcKeys a ++ vcKeys b).dedup
            · have h1 := List.any_eq_false.mp (Bool.eq_false_iff.mpr hL) k hk
              have h2 := List.any_eq_false.mp (Bool.eq_false_iff.mpr hG) k hk
              have h1' : ¬ (vcGet a k < vcGet b k) := by simpa using h1
              have h2' : ¬ (vcGet b k < vcGet a k) := by simpa using h2
              omega
            · obtain ⟨h1, h2⟩ := not_mem_union_get_zero hk
              omega
          rw [(vcEqual_iff_pointwise hwa hwb hpa hpb).mpr hpt] at he
          cases he
  · rintro ⟨⟨k₁, h₁⟩, ⟨k₂, h₂⟩⟩
    have he : vcEqual a b = false := by
      cases he : vcEqual a b with
      | false => rfl
      | true =>
        have := (vcEqual_iff_pointwise hwa hwb hpa hpb).mp he k₁
        omega
    rw [vcCompare_of_not_equal he]
    have hL : ((vcKeys a ++ vcKeys b).dedup.any (fun k => vcGet a k < vcGet b k)) = true := by
      have hb : k₁ ∈ vcKeys b :=
        mem_keys_of_vcGet_ne (by have := vcGet_nonneg hpa k₁; omega)
      exact List.any_eq_true.mpr ⟨k₁, by simp [List.mem_dedup, hb], by simpa using h₁⟩
    have hG : ((vcKeys a ++ vcKeys b).dedup.any (fun k => vcGet b k < vcGet a k)) = true := by
      have ha : k₂ ∈ vcKeys a :=
        mem_keys_of_vcGet_ne (by have := vcGet_nonneg hpb k₂; omega)
      exact List.any_eq_true.mpr ⟨k₂, by simp [List.mem_dedup, ha], by simpa using h₂⟩
    rw [hL, hG]
    rfl

theorem vcPos_vcSet {vc : VC} (hp : vcPos vc) {v : Int} (hv : 0 < v) (k : NodeId) :
    vcPos (vcSet vc k v) := by
  induction vc with
  | nil =>
    intro e he
    simp only [vcSet, List.mem_singleton] at he
    subst he
    exact hv
  | cons e₀ rest ih =>
    obtain ⟨k₀, v₀⟩ := e₀
    have hp' : vcPos rest := fun e he => hp e (List.mem_cons_of_mem _ he)
    intro e he
    simp only [vcSet] at he
    split at he
    · rcases List.mem_cons.mp he with heq | hmem
      · subst heq; exact hv
      · exact hp e (List.mem_cons_of_mem _ hmem)
    · rcases List.mem_cons.mp he with heq | hmem
      · subst heq; exact hp _ (List.mem_cons_self _ _)
      · exact ih hp' e hmem

theorem vcGet_vcMerge {b : VC} (hwb : vcWF b) (hpb : vcPos b) :
    ∀ (a : VC), vcPos a →
      ∀ (k : NodeId), vcGet (vcMerge a b) k = max (vcGet a k) (vcGet b k) := by
  induction b with
  | nil =>
    intro a hpa k
    have := vcGet_nonneg hpa k
    simp only [vcMerge, List.foldl_nil]
    have h0 : vcGet ([] : VC) k = 0 := by simp [vcGet, List.lookup]
    rw [h0]
    omega
  | cons e rest ih =>
    intro a hpa k
    obtain ⟨k₀, c₀⟩ := e
    have hwf' := List.nodup_cons.mp hwb
    have hp' : vcPos rest := fun e he => hpb e (List.mem_cons_of_mem _ he)
    have hc₀ : (0 : Int) < c₀ := hpb _ (List.mem_cons_self _ _)
    have step : vcMerge a ((k₀, c₀) :: rest) =
        vcMerge (if vcGet a k₀ < c₀ then vcSet a k₀ c₀ else a) rest := by
      simp only [vcMerge, List.foldl_cons]
    have hpa' : vcPos (if vcGet a k₀ < c₀ then vcSet a k₀ c₀ else a) := by
      by_cases hlt : vcGet a k₀ < c₀
      · rw [if_pos hlt]; exact vcPos_vcSet hpa hc₀ k₀
      · rw [if_neg hlt]; exact hpa
    rw [step, ih hwf'.2 hp' _ hpa']
    by_cases hk : k = k₀
    · subst hk
      have hrest : vcGet rest k = 0 := vcGet_eq_zero_of_not_mem hwf'.1
      have hcons : vcGet ((k, c₀) :: rest) k = c₀ := by
        simp [vcGet, lookup_cons_self]
      rw [hrest, hcons]
      by_cases hlt : vcGet a k < c₀
      · rw [if_pos hlt]
        have : vcGet (vcSet a k c₀) k = c₀ := by simp [vcGet_vcSet]
        rw [this]
        omega
      · rw [if_neg hlt]
        omega
    · have hcons : vcGet ((k₀, c₀) :: rest) k = vcGet rest k := by
        simp [vcGet, lookup_cons_ne hk]
      rw [hcons]
      by_cases hlt : vcGet a k₀ < c₀
      · rw [if_pos hlt]
        have : vcGet (vcSet a k₀ c₀) k = vcGet a k := by simp [vcGet_vcSet, hk]
        rw [this]
      · rw [if_neg hlt]

theorem vcWF_nil : vcWF ([] : VC) := List.nodup_nil

theorem vcPos_nil : vcPos ([] : VC) := fun e he => absurd he (List.not_mem_nil e)

/-! ## Claim C6 -/

/-- Claim C6, counterexample: the clock with the explicit zero entry a:0 and
the empty clock match counter-for-counter with missing entries treated as
zero, yet Compare returns Concurrent and not Equal, because Equal first
compares map lengths. -/
theorem C6_counterexample :
    vcCompare [("a", 0)] ([] : VC) = .concurrent ∧
      (∀ k, vcGet [("a", 0)] k = vcGet ([] : VC) k) := by
  refine ⟨by decide, fun k => ?_⟩
  rw [vcGet_nil]
  by_cases h : k = "a"
  · subst h
    simp [vcGet, lookup_cons_self]
  · have hbeq : (k == "a") = false := by simp [h]
    simp [vcGet, List.lookup, hbeq]

/-- Claim C6 (amended): on well-formed clocks whose stored counters are all
positive — which excludes explicit zero entries — compare returns Equal
exactly when every counter matches with missing entries treated as zero,
Before when every counter of a is at most the counterpart with one strictly
less, After in the mirror case, and Concurrent exactly when each side
exceeds the other somewhere; the empty clock compares Equal with the empty
clock and Before any non-empty such clock.  (A clock with an explicit zero
entry does not compare Equal to the clock without it: Equal also requires
equal entry counts, so that pair compares Concurrent.) -/
theorem C6_compare_characterization (a b : VC) (hwa : vcWF a) (hwb : vcWF b)
    (hpa : vcPos a) (hpb : vcPos b) :
    (vcCompare a b = .equal ↔ ∀ k, vcGet a k = vcGet b k) ∧
    (vcCompare a b = .before ↔
      (∀ k, vcGet a k ≤ vcGet b k) ∧ ∃ k, vcGet a k < vcGet b k) ∧
    (vcCompare a b = .after ↔
      (∀ k, vcGet b k ≤ vcGet a k) ∧ ∃ k, vcGet b k < vcGet a k) ∧
    (vcCompare a b = .concurrent ↔
      (∃ k, vcGet a k < vcGet b k) ∧ (∃ k, vcGet b k < vcGet a k)) ∧
    vcCompare ([] : VC) ([] : VC) = .equal ∧
    (b ≠ [] → vcCompare ([] : VC) b = .before) := by
  refine ⟨vcCompare_eq_equal_iff hwa hwb hpa hpb,
    vcCompare_eq_before_iff hwa hwb hpa hpb,
    vcCompare_eq_after_iff hwa hwb hpa hpb,
    vcCompare_eq_concurrent_iff hwa hwb hpa hpb,
    by decide, fun hb => ?_⟩
  obtain ⟨e, rest, rfl⟩ := List.exists_cons_of_ne_nil hb
  refine (vcCompare_eq_before_iff vcWF_nil hwb vcPos_nil hpb).mpr
    ⟨fun k => by rw [vcGet_nil]; exact vcGet_nonneg hpb k, e.1, ?_⟩
  rw [vcGet_nil]
  exact vcGet_pos_of_mem hpb (List.mem_map.mpr ⟨e, List.mem_cons_self _ _, rfl⟩)

/-- Claim C6, witness: the characterization applied to n1:1 versus n1:2. -/
theorem C6_compare_characterization_witness :
    (∀ k, vcGet [("n1", 1)] k ≤ vcGet [("n1", 2)] k) ∧
      ∃ k, vcGet [("n1", 1)] k < vcGet [("n1", 2)] k :=
  ((C6_compare_characterization [("n1", 1)] [("n1", 2)]
      (by decide) (by decide) (by decide) (by decide)).2.1).mp (by decide)

/-! ## Claims C4 and C5 -/

/-- Claim C4: the quorum engine fails immediately with the NoReplicas error
on an empty replica list, fails with the QuorumExceedsReplicas error when
the effective quorum exceeds the replica count, and otherwise do_write
succeeds exactly when the positive acks reach W and do_read succeeds
exactly when the responses reach R. -/
theorem C4_quorum_thresholds (replicas : List String) (requiredW requiredR : Int)
    (writeFn : String → Bool) (readFn : String → Option ReadValue) :
    (replicas = [] →
      DoWrite replicas requiredW writeFn = ⟨false, 0, 0, 0, "no replicas provided"⟩ ∧
      DoRead replicas requiredR readFn = ⟨false, 0, 0, 0, [], "no replicas provided"⟩) ∧
    (replicas ≠ [] → (replicas.length : Int) < effectiveQuorum requiredW replicas.length →
      (DoWrite replicas requiredW writeFn).success = false ∧
      (DoWrite replicas requiredW writeFn).errorMessage =
        quorumExceedsWMsg (effectiveQuorum requiredW replicas.length) replicas.length) ∧
    (replicas ≠ [] → (replicas.length : Int) < effectiveQuorum requiredR replicas.length →
      (DoRead replicas requiredR readFn).success = false ∧
      (DoRead replicas requiredR readFn).errorMessage =
        quorumExceedsRMsg (effectiveQuorum requiredR replicas.length) replicas.length) ∧
    (replicas ≠ [] → effectiveQuorum requiredW replicas.length ≤ (replicas.length : Int) →
      ((DoWrite replicas requiredW writeFn).success = true ↔
        effectiveQuorum requiredW replicas.length ≤
          (((DoWrite replicas requiredW writeFn).acks : Int)))) ∧
    (replicas ≠ [] → effectiveQuorum requiredR replicas.length ≤ (replicas.length : Int) →
      ((DoRead replicas requiredR readFn).success = true ↔
        effectiveQuorum requiredR replicas.length ≤
          (((DoRead replicas requiredR readFn).responses : Int)))) := by
  refine ⟨fun he => ?_, fun hne hex => ?_, fun hne hex => ?_, fun hne hle => ?_, fun hne hle => ?_⟩
  · subst he
    exact ⟨rfl, rfl⟩
  · have hlen : replicas.length ≠ 0 := by simpa using List.length_pos.mpr hne |>.ne'
    rw [DoWrite, if_neg hlen, if_pos hex]
    exact ⟨rfl, rfl⟩
  · have hlen : replicas.length ≠ 0 := by simpa using List.length_pos.mpr hne |>.ne'
    rw [DoRead, if_neg hlen, if_pos hex]
    exact ⟨rfl, rfl⟩
  · have hlen : replicas.length ≠ 0 := by simpa using List.length_pos.mpr hne |>.ne'
    have hnx : ¬ ((replicas.length : Int) < effectiveQuorum requiredW replicas.length) :=
      not_lt.mpr hle
    rw [DoWrite, if_neg hlen, if_neg hnx]
    by_cases hq : effectiveQuorum requiredW replicas.length ≤
        (((replicas.filter writeFn).length : Int))
    · rw [if_pos hq]
      simpa using hq
    · rw [if_neg hq]
      simpa using hq
  · have hlen : replicas.length ≠ 0 := by simpa using List.length_pos.mpr hne |>.ne'
    have hnx : ¬ ((replicas.length : Int) < effectiveQuorum requiredR replicas.length) :=
      not_lt.mpr hle
    rw [DoRead, if_neg hlen, if_neg hnx]
    by_cases hq : effectiveQuorum requiredR replicas.length ≤
        (((replicas.filterMap readFn).length : Int))
    · rw [if_pos hq]
      simpa using hq
    · rw [if_neg hq]
      simpa using hq

/-- Claim C4, witness: three replicas, W = R = 2, one failing replica. -/
theorem C4_quorum_thresholds_witness :
    (DoWrite ["r1", "r2", "r3"] 2 (fun r => r != "r3")).success = true ↔
      effectiveQuorum 2 (["r1", "r2", "r3"] : List String).length ≤
        (((DoWrite ["r1", "r2", "r3"] 2 (fun r => r != "r3")).acks : Int)) :=
  (C4_quorum_thresholds ["r1", "r2", "r3"] 2 2 (fun r => r != "r3")
      (fun _ => none)).2.2.2.1 (by decide) (by decide)

/-- Claim C5: evaluation of DoWrite at the early-termination scenario (five
replicas, W = 2, every replica acking).  The returned record reports all
five acks: the engine joined on the completion of every per-replica
operation before answering — its select waits only on wg.Wait() or caller
cancellation and has no threshold arm — contradicting the specified
return-at-threshold behaviour. -/
theorem C5_doWrite_observes_all_replicas :
    DoWrite ["r1", "r2", "r3", "r4", "r5"] 2 (fun _ => true) =
      ⟨true, 5, 2, 5, ""⟩ := by
  decide

/-! ## Claim C7 -/

theorem glookup_cons_ne {β : Type} {k k₀ : String} (h : k ≠ k₀) (v₀ : β)
    (rest : List (String × β)) :
    List.lookup k ((k₀, v₀) :: rest) = List.lookup k rest := by
  have hbeq : (k == k₀) = false := by simp [h]
  simp [List.lookup, hbeq]

theorem glookup_cons_self {β : Type} (k : String) (v₀ : β) (rest : List (String × β)) :
    List.lookup k ((k, v₀) :: rest) = some v₀ := by
  simp [List.lookup]

theorem gmem_of_lookup_some {β : Type} {m : List (String × β)} {k : String} {v : β}
    (h : List.lookup k m = some v) : (k, v) ∈ m := by
  induction m with
  | nil => simp [List.lookup] at h
  | cons e rest ih =>
    obtain ⟨k₀, v₀⟩ := e
    by_cases hk : k = k₀
    · subst hk
      rw [glookup_cons_self] at h
      cases h
      exact List.mem_cons_self _ _
    · rw [glookup_cons_ne hk] at h
      exact List.mem_cons_of_mem _ (ih h)

theorem lookup_mapSet {β : Type} (m : List (String × β)) (k : String) (v : β) (k' : String) :
    List.lookup k' (mapSet m k v) = if k' = k then some v else List.lookup k' m := by
  induction m with
  | nil =>
    by_cases h : k' = k
    · subst h; simp [mapSet, glookup_cons_self]
    · have hbeq : (k' == k) = false := by simp [h]
      simp [mapSet, List.lookup, hbeq, h]
  | cons e rest ih =>
    obtain ⟨k₀, v₀⟩ := e
    simp only [mapSet]
    by_cases h0 : k₀ = k
    · simp only [if_pos h0]
      subst h0
      by_cases h : k' = k₀
      · subst h; simp [glookup_cons_self]
      · simp [glookup_cons_ne h, h]
    · simp only [if_neg h0]
      by_cases h : k' = k₀
      · subst h
        simp [glookup_cons_self, h0]
      · simp only [glookup_cons_ne h]
        exact ih

/-- Claim C7: put_repair fails with the missing-version error when the
incoming clock is absent; with a stored unexpired entry it silently skips
(store unchanged) when the incoming clock is Before or Concurrent and
overwrites with the exact clock when it is After or Equal; on a missing key
it stores the exact clock; and on every successful outcome the clock stored
for the key is After or Equal to the previously stored clock, so the stored
clock never decreases under the compare order. -/
theorem C7_put_repair (s : InMemoryStore) (now : Nat) (key : String)
    (value : List UInt8) (v : VC) (deleted : Bool)
    (hs : ∀ p ∈ s.data, vcWF p.2.version) :
    (storePutRepair s now key value none deleted =
      .error "repair requires non-nil version") ∧
    (∀ existing, List.lookup key s.data = some existing → isExpired now existing = false →
      vcCompare v existing.version ≠ .after → vcCompare v existing.version ≠ .equal →
      storePutRepair s now key value (some v) deleted = .ok s) ∧
    (∀ existing, List.lookup key s.data = some existing → isExpired now existing = false →
      (vcCompare v existing.version = .after ∨ vcCompare v existing.version = .equal) →
      storePutRepair s now key value (some v) deleted =
        .ok { s with data := mapSet s.data key ⟨(if deleted then [] else value), v, deleted, none⟩ }) ∧
    (List.lookup key s.data = none →
      storePutRepair s now key value (some v) deleted =
        .ok { s with data := mapSet s.data key ⟨(if deleted then [] else value), v, deleted, none⟩ }) ∧
    (∀ s', storePutRepair s now key value (some v) deleted = .ok s' →
      ∀ existing, List.lookup key s.data = some existing → isExpired now existing = false →
      ∀ stored, List.lookup key s'.data = some stored →
        vcCompare stored.version existing.version = .after ∨
        vcCompare stored.version existing.version = .equal) := by
  refine ⟨rfl, ?_, ?_, ?_, ?_⟩
  · intro existing hlook hexp hne1 hne2
    simp [storePutRepair, hlook, hexp, hne1, hne2]
  · intro existing hlook hexp hor
    have hcomp : ¬ (vcCompare v existing.version ≠ .after ∧
        vcCompare v existing.version ≠ .equal) := by
      rcases hor with h | h <;> simp [h]
    simp only [storePutRepair, hlook, hexp]
    rw [if_neg (by simpa using hcomp)]
  · intro hlook
    simp [storePutRepair, hlook]
  · intro s' hok existing hlook hexp stored hstored
    have hwfe : vcWF existing.version := hs _ (gmem_of_lookup_some hlook)
    by_cases hcomp : vcCompare v existing.version = .after ∨
        vcCompare v existing.version = .equal
    · have heq : s' = { s with data := mapSet s.data key ⟨(if deleted then [] else value), v, deleted, none⟩ } := by
        have hcomp' : ¬ (vcCompare v existing.version ≠ .after ∧
            vcCompare v existing.version ≠ .equal) := by
          rcases hcomp with h | h <;> simp [h]
        rw [storePutRepair] at hok
        simp only [hlook, hexp] at hok
        rw [if_neg (by simpa using hcomp')] at hok
        simpa using hok.symm
      subst heq
      have : List.lookup key (mapSet s.data key ⟨(if deleted then [] else value), v, deleted, none⟩) = some ⟨(if deleted then [] else value), v, deleted, none⟩ := by
        rw [lookup_mapSet]
        simp
      rw [this] at hstored
      cases hstored
      exact hcomp
    · push_neg at hcomp
      have heq : s' = s := by
        rw [storePutRepair] at hok
        simp only [hlook, hexp] at hok
        rw [if_pos (by simpa using hcomp)] at hok
        simpa using hok.symm
      subst heq
      rw [hstored] at hlook
      cases hlook
      right
      exact vcCompare_self hwfe

/-- Claim C7, witness: a repair carrying n1:2 overwrites a stored entry at
n1:1. -/
theorem C7_put_repair_witness :
    storePutRepair (⟨[("k", ⟨[], [("n1", 1)], false, none⟩)], "n1"⟩ : InMemoryStore) 0 "k"
        [104] (some [("n1", 2)]) false =
      .ok { (⟨[("k", ⟨[], [("n1", 1)], false, none⟩)], "n1"⟩ : InMemoryStore) with
        data := mapSet [("k", ⟨[], [("n1", 1)], false, none⟩)] "k"
          ⟨(if false then [] else [104]), [("n1", 2)], false, none⟩ } :=
  (C7_put_repair ⟨[("k", ⟨[], [("n1", 1)], false, none⟩)], "n1"⟩ 0 "k"
      [104] [("n1", 2)] false (by decide)).2.2.1
    ⟨[], [("n1", 1)], false, none⟩ (by decide) (by decide) (Or.inl (by decide))

/-! ## Claim C1 -/

/-- Clock stored by Put: merge of the incoming clock with an unexpired
existing clock, then the increment of the local node counter, read
pointwise. -/
theorem storePut_version_spec (s : InMemoryStore) (now : Nat) (key : String)
    (value : List UInt8) (v : VC) (deleted : Bool) (hpv : vcPos v)
    (hs : ∀ p ∈ s.data, vcWF p.2.version ∧ vcPos p.2.version) :
    List.lookup key (storePut s now key value (some v) deleted).2.data =
      some ⟨(if deleted then [] else value),
        (storePut s now key value (some v) deleted).1, deleted, none⟩ ∧
    (∀ existing, List.lookup key s.data = some existing → isExpired now existing = false →
      ∀ k, vcGet (storePut s now key value (some v) deleted).1 k =
        if k = s.nodeID then max (vcGet v k) (vcGet existing.version k) + 1
        else max (vcGet v k) (vcGet existing.version k)) ∧
    (List.lookup key s.data = none →
      ∀ k, vcGet (storePut s now key value (some v) deleted).1 k =
        if k = s.nodeID then vcGet v k + 1 else vcGet v k) := by
  refine ⟨?_, ?_, ?_⟩
  · simp only [storePut]
    rw [lookup_mapSet]
    simp
  · intro existing hlook hexp k
    have hmem := gmem_of_lookup_some hlook
    have hwe : vcWF existing.version := (hs _ hmem).1
    have hpe : vcPos existing.version := (hs _ hmem).2
    simp only [storePut, hlook, hexp, Bool.false_eq_true, if_false]
    rw [vcGet_vcIncrement]
    by_cases hk : k = s.nodeID
    · subst hk
      simp only [if_pos rfl]
      rw [vcGet_vcMerge hwe hpe v hpv]
    · simp only [if_neg hk]
      rw [vcGet_vcMerge hwe hpe v hpv]
  · intro hlook k
    simp only [storePut, hlook]
    rw [vcGet_vcIncrement]
    by_cases hk : k = s.nodeID
    · subst hk
      simp
    · simp [hk]

/-- Claim C1, counterexample: a non-repair ReplicaPut of the coordinator
clock c:1 into an empty replica store with node id r stores c:1,r:1 — the
replica merged and incremented its own counter instead of applying the
clock verbatim — and a second replica r2 stores c:1,r2:1, so the replicas
do not hold an identical clock for the coordinated write. -/
theorem C1_counterexample :
    (replicaPut ⟨[], "r"⟩ 0 "k" [118] (some [("c", 1)]) false false).2.data =
      [("k", ⟨[118], [("c", 1), ("r", 1)], false, none⟩)] ∧
    vcEqual [("c", 1), ("r", 1)] [("c", 1)] = false ∧
    (replicaPut ⟨[], "r2"⟩ 0 "k" [118] (some [("c", 1)]) false false).2.data =
      [("k", ⟨[118], [("c", 1), ("r2", 1)], false, none⟩)] ∧
    vcEqual [("c", 1), ("r", 1)] [("c", 1), ("r2", 1)] = false := by
  refine ⟨?_, by decide, ?_, by decide⟩ <;> decide

/-- Claim C1 (amended): a non-repair replica write (ReplicaPut with
is_repair = false) routes through store.Put: it succeeds for a non-empty
key and the clock it stores is the merge of the incoming coordinator clock
with the replica's unexpired stored clock, with the replica's own counter
incremented — strictly above the incoming clock at the replica's own id,
hence not the coordinator clock verbatim, and replicas with different node
ids store different clocks for the same coordinated write.  (The
coordinator's write to itself in Put/Delete calls the same store.Put, so it
increments the coordinator counter a second time.) -/
theorem C1_replica_put_not_verbatim (s : InMemoryStore) (now : Nat) (key : String)
    (value : List UInt8) (v : VC) (deleted : Bool)
    (hkey : key ≠ "") (hpv : vcPos v)
    (hs : ∀ p ∈ s.data, vcWF p.2.version ∧ vcPos p.2.version) :
    (replicaPut s now key value (some v) deleted false).1.status = .success ∧
    (∀ stored,
      List.lookup key (replicaPut s now key value (some v) deleted false).2.data =
        some stored →
      stored.deleted = deleted ∧
      (∀ existing, List.lookup key s.data = some existing →
        isExpired now existing = false →
        ∀ k, vcGet stored.version k =
          if k = s.nodeID then max (vcGet v k) (vcGet existing.version k) + 1
          else max (vcGet v k) (vcGet existing.version k)) ∧
      (List.lookup key s.data = none →
        ∀ k, vcGet stored.version k =
          if k = s.nodeID then vcGet v k + 1 else vcGet v k) ∧
      vcGet v s.nodeID < vcGet stored.version s.nodeID) := by
  have hrp : replicaPut s now key value (some v) deleted false =
      (⟨.success, ""⟩, (storePut s now key value (some v) deleted).2) := by
    simp [replicaPut, hkey]
  obtain ⟨hself, hexist, hnone⟩ :=
    storePut_version_spec s now key value v deleted hpv hs
  refine ⟨by rw [hrp], fun stored hlk => ?_⟩
  rw [hrp] at hlk
  rw [hself] at hlk
  cases hlk
  refine ⟨rfl, hexist, hnone, ?_⟩
  show vcGet v s.nodeID < vcGet (storePut s now key value (some v) deleted).1 s.nodeID
  cases hlook : List.lookup key s.data with
  | none =>
    have h1 := hnone hlook s.nodeID
    rw [h1, if_pos rfl]
    omega
  | some existing =>
    cases hexp : isExpired now existing with
    | false =>
      have h1 := hexist existing hlook hexp s.nodeID
      rw [h1, if_pos rfl]
      have h2 : vcGet v s.nodeID ≤ max (vcGet v s.nodeID) (vcGet existing.version s.nodeID) :=
        le_max_left _ _
      omega
    | true =>
      have hv1 : vcGet (storePut s now key value (some v) deleted).1 s.nodeID =
          vcGet v s.nodeID + 1 := by
        simp only [storePut, hlook, hexp, if_true]
        rw [vcGet_vcIncrement]
        simp
      rw [hv1]
      omega

/-- Claim C1, witness: the amended characterization applied to the
counterexample write: the stored clock strictly exceeds the coordinator
clock at the replica's own id. -/
theorem C1_replica_put_not_verbatim_witness :
    vcGet [("c", 1)] "r" <
      vcGet (⟨[118], [("c", 1), ("r", 1)], false, none⟩ : StoredValue).version "r" :=
  ((C1_replica_put_not_verbatim ⟨[], "r"⟩ 0 "k" [118] [("c", 1)] false
      (by decide) (by decide) (by decide)).2
    ⟨[118], [("c", 1), ("r", 1)], false, none⟩ (by decide)).2.2.2

/-! ## Claim C10 -/

/-- Claim C10: for a non-empty key — also one never written — the quorum
Delete never answers NOT_FOUND: it answers ERROR when the preference list
is empty or the write quorum is unmet, and SUCCESS with the new coordinator
clock when the quorum is met; the per-replica write stores a tombstone
(deleted entry with nil bytes) whether applied locally through store.Put or
remotely through a non-repair ReplicaPut with deleted=true. -/
theorem C10_delete_never_not_found (nodeID : String) (replicationFactor : Int)
    (defaultW : Nat) (ring : GoRing) (key : String) (consistencyW : Int)
    (reqVersion : Option VC) (ack : String → Bool) (hkey : key ≠ "") :
    (serverDelete nodeID replicationFactor defaultW ring key consistencyW
        reqVersion ack).status ≠ .notFound ∧
    (GetReplicasForKey ring key
        (if replicationFactor ≤ 0 then 3 else replicationFactor) = [] →
      serverDelete nodeID replicationFactor defaultW ring key consistencyW
        reqVersion ack = ⟨.error, none, "no replicas available"⟩) ∧
    (GetReplicasForKey ring key
        (if replicationFactor ≤ 0 then 3 else replicationFactor) ≠ [] →
      ((serverDelete nodeID replicationFactor defaultW ring key consistencyW
          reqVersion ack).status = .success ↔
        (DoWrite ((GetReplicasForKey ring key
            (if replicationFactor ≤ 0 then 3 else replicationFactor)).map
              (fun r => r.addr))
          (if consistencyW ≤ 0 then (defaultW : Int) else consistencyW)
          ack).success = true)) ∧
    ((serverDelete nodeID replicationFactor defaultW ring key consistencyW
        reqVersion ack).status = .success →
      (serverDelete nodeID replicationFactor defaultW ring key consistencyW
        reqVersion ack).version =
        some (coordinatorNewVersion nodeID reqVersion)) ∧
    (∀ s now stored,
      List.lookup key
        (storePut s now key []
          (some (coordinatorNewVersion nodeID reqVersion)) true).2.data =
        some stored →
      stored.deleted = true ∧ stored.value = []) ∧
    (∀ store now stored,
      List.lookup key
        (replicaPut store now key []
          (some (coordinatorNewVersion nodeID reqVersion)) true false).2.data =
        some stored →
      stored.deleted = true ∧ stored.value = []) := by
  refine ⟨?_, ?_, ?_, ?_, ?_, ?_⟩
  · simp only [serverDelete, if_neg hkey]
    by_cases h1 : (GetReplicasForKey ring key
        (if replicationFactor ≤ 0 then 3 else replicationFactor)).length = 0
    · rw [if_pos h1]
      simp
    · rw [if_neg h1]
      by_cases h2 : (DoWrite ((GetReplicasForKey ring key
            (if replicationFactor ≤ 0 then 3 else replicationFactor)).map
              (fun r => r.addr))
          (if consistencyW ≤ 0 then (defaultW : Int) else consistencyW)
          ack).success = true
      · rw [if_pos h2]
        simp
      · rw [if_neg h2]
        simp
  · intro hrep
    have h1 : (GetReplicasForKey ring key
        (if replicationFactor ≤ 0 then 3 else replicationFactor)).length = 0 := by
      rw [hrep]; rfl
    simp only [serverDelete, if_neg hkey]
    rw [if_pos h1]
  · intro hrep
    have h1 : ¬ ((GetReplicasForKey ring key
        (if replicationFactor ≤ 0 then 3 else replicationFactor)).length = 0) := by
      simpa using List.length_pos.mpr hrep |>.ne'
    simp only [serverDelete, if_neg hkey]
    rw [if_neg h1]
    by_cases h2 : (DoWrite ((GetReplicasForKey ring key
          (if replicationFactor ≤ 0 then 3 else replicationFactor)).map
            (fun r => r.addr))
        (if consistencyW ≤ 0 then (defaultW : Int) else consistencyW)
        ack).success = true
    · rw [if_pos h2]
      simp [h2]
    · rw [if_neg h2]
      simp only [Bool.not_eq_true] at h2
      simp [h2]
  · intro hsucc
    by_cases h1 : (GetReplicasForKey ring key
        (if replicationFactor ≤ 0 then 3 else replicationFactor)).length = 0
    · simp only [serverDelete, if_neg hkey] at hsucc ⊢
      rw [if_pos h1] at hsucc
      simp at hsucc
    · simp only [serverDelete, if_neg hkey] at hsucc ⊢
      rw [if_neg h1] at hsucc ⊢
      by_cases h2 : (DoWrite ((GetReplicasForKey ring key
            (if replicationFactor ≤ 0 then 3 else replicationFactor)).map
              (fun r => r.addr))
          (if consistencyW ≤ 0 then (defaultW : Int) else consistencyW)
          ack).success = true
      · rw [if_pos h2]
      · rw [if_neg h2] at hsucc
        simp at hsucc
  · intro s now stored hlk
    simp only [storePut] at hlk
    rw [lookup_mapSet] at hlk
    simp only [if_pos rfl] at hlk
    cases hlk
    exact ⟨rfl, rfl⟩
  · intro store now stored hlk
    have hrp : replicaPut store now key []
        (some (coordinatorNewVersion nodeID reqVersion)) true false =
        (⟨.success, ""⟩, (storePut store now key []
          (some (coordinatorNewVersion nodeID reqVersion)) true).2) := by
      simp [replicaPut, hkey]
    rw [hrp] at hlk
    simp only [storePut] at hlk
    rw [lookup_mapSet] at hlk
    simp only [if_pos rfl] at hlk
    cases hlk
    exact ⟨rfl, rfl⟩

/-- Claim C10, witness: one-node ring, a never-written key, quorum met by
the single ack. -/
theorem C10_delete_never_not_found_witness :
    (serverDelete "n1" 3 1 (buildRing 2 [⟨"n1", "a1"⟩]) "k" 1 none
        (fun _ => true)).status ≠ .notFound :=
  (C10_delete_never_not_found "n1" 3 1 (buildRing 2 [⟨"n1", "a1"⟩]) "k" 1 none
      (fun _ => true) (by decide)).1

/-! ## Claim C9 -/

/-- Claim C9, counterexample: a member that is Dead at incarnation 5
becomes Alive from an incoming gossip record with Alive status at the same
incarnation 5 (the equal-incarnation branch applies the Alive > Suspect >
Dead preference), and a successful ping (MarkAlive) also moves it to Alive
— both without any strictly greater incarnation. -/
theorem C9_counterexample :
    ((List.lookup "n1" (ApplyGossip
        ⟨"L", "aL", [("n1", ⟨"n1", "a1", .dead, 5, 0⟩)], [("n1", 5)]⟩ 10
        [⟨"n1", "a1", .alive, 5, 7⟩]).members).map (fun x => x.status)) =
      some .alive ∧
    ((List.lookup "n1" (MarkAlive
        ⟨"L", "aL", [("n1", ⟨"n1", "a1", .dead, 5, 0⟩)], [("n1", 5)]⟩ 10
        "n1").members).map (fun x => x.status)) = some .alive := by
  exact ⟨by decide, by decide⟩

/-- Claim C9 (amended): a non-self Dead member becomes Alive from an
incoming gossip record exactly when the record carries Alive status with
incarnation at least the member's current one (strictly greater overwrites
with the remote status; equal applies the Alive > Suspect > Dead
preference), and a successful ping (MarkAlive on the sender id) moves any
existing member, Dead included, to Alive; a record with lower incarnation,
or with non-Alive status, never sets a Dead member Alive. -/
theorem C9_dead_to_alive (m : Membership) (now : Nat) (rec : GMember)
    (lm : GMember) (hself : rec.id ≠ m.localID)
    (hmem : List.lookup rec.id m.members = some lm) (hdead : lm.status = .dead) :
    (((List.lookup rec.id (applyGossipRecord m now rec).members).map
        (fun x => x.status)) = some .alive ↔
      (rec.status = .alive ∧ lm.incarnation ≤ rec.incarnation)) ∧
    (∀ id mem, List.lookup id m.members = some mem →
      ((List.lookup id (MarkAlive m now id).members).map (fun x => x.status)) =
        some .alive) := by
  constructor
  · simp only [applyGossipRecord, if_neg hself, hmem]
    by_cases hlt : lm.incarnation < rec.incarnation
    · rw [if_pos hlt]
      simp only [lookup_mapSet, if_pos rfl, Option.map_some']
      constructor
      · intro h
        have : rec.status = .alive := by
          have := Option.some.injEq _ _ ▸ h
          simpa using h
        exact ⟨this, le_of_lt hlt⟩
      · intro h
        simp [h.1]
    · rw [if_neg hlt]
      by_cases heq : rec.incarnation = lm.incarnation
      · rw [if_pos heq]
        by_cases hsu : shouldUpdateStatus lm.status rec.status = true
        · rw [if_pos hsu]
          simp only [lookup_mapSet, if_pos rfl, Option.map_some']
          constructor
          · intro h
            have : rec.status = .alive := by simpa using h
            exact ⟨this, le_of_eq heq.symm⟩
          · intro h
            simp [h.1]
        · rw [if_neg hsu]
          rw [hmem]
          simp only [Option.map_some']
          constructor
          · intro h
            have : lm.status = .alive := by simpa using h
            rw [hdead] at this
            cases this
          · rintro ⟨hal, _⟩
            exact absurd (by simp [shouldUpdateStatus, hdead, hal]) hsu
      · rw [if_neg heq]
        rw [hmem]
        simp only [Option.map_some']
        constructor
        · intro h
          have : lm.status = .alive := by simpa using h
          rw [hdead] at this
          cases this
        · rintro ⟨_, hle⟩
          exact absurd (Nat.le_antisymm (not_lt.mp hlt) hle) heq
  · intro id mem hmem'
    simp only [MarkAlive, hmem']
    by_cases hst : mem.status ≠ .alive
    · rw [if_pos hst]
      simp [lookup_mapSet]
    · rw [if_neg hst]
      push_neg at hst
      simp [lookup_mapSet, hst]

/-- Claim C9, witness: the amended characterization applied to the
counterexample state: Alive at equal incarnation revives the Dead member. -/
theorem C9_dead_to_alive_witness :
    ((List.lookup "n1" (applyGossipRecord
        ⟨"L", "aL", [("n1", ⟨"n1", "a1", .dead, 5, 0⟩)], [("n1", 5)]⟩ 10
        ⟨"n1", "a1", .alive, 5, 7⟩).members).map (fun x => x.status)) =
      some .alive :=
  ((C9_dead_to_alive ⟨"L", "aL", [("n1", ⟨"n1", "a1", .dead, 5, 0⟩)], [("n1", 5)]⟩
      10 ⟨"n1", "a1", .alive, 5, 7⟩ ⟨"n1", "a1", .dead, 5, 0⟩
      (by decide) (by decide) (by decide)).1).mpr ⟨by decide, by decide⟩

/-! ## Claim C3 -/

/-- Claim C3: the coordinator Get never hands anything to the read
repairer.  First conjunct: on every input, the post-quorum Get processing
dispatches no repair call — the source computes reconcileResult, answers
the client from it, and drops the stale map (Server.readRepairer is
constructed in server.go and never invoked).  The remaining conjuncts
evaluate the read-repair scenario (one replica at n1:1, one at n1:2): the
reconciler does report a stale replica, the client still gets SUCCESS, and
the repairer — had it been handed the stale map — would have issued a
repair write. -/
theorem C3_get_never_dispatches_repair :
    (∀ key replicas values, (getPostQuorum key replicas values).2 = []) ∧
    (Reconcile [⟨[120], [("n1", 1)], false⟩, ⟨[121], [("n1", 2)], false⟩]
        ["r1", "r2"]).stale = [("r1", ⟨[120], [("n1", 1)], false⟩)] ∧
    (getPostQuorum "r" [⟨"r1", "a1"⟩, ⟨"r2", "a2"⟩]
        [⟨[120], [("n1", 1)], false⟩, ⟨[121], [("n1", 2)], false⟩]).1.status =
      .success ∧
    repairRPCs "r"
      (Reconcile [⟨[120], [("n1", 1)], false⟩, ⟨[121], [("n1", 2)], false⟩]
        ["r1", "r2"]).winners
      (Reconcile [⟨[120], [("n1", 1)], false⟩, ⟨[121], [("n1", 2)], false⟩]
        ["r1", "r2"]).stale
      [("r1", "a1"), ("r2", "a2")] =
      [⟨"a1", "r", [121], [("n1", 2)], false, true⟩] := by
  refine ⟨fun key replicas values => ?_, by decide, by decide, by decide⟩
  simp only [getPostQuorum]
  split
  · rfl
  · split
    · rfl
    · split
      · split
        · rfl
        · rfl
      · rfl

/-! ## Claim C2 -/

theorem mem_mapSet {β : Type} (st : List (String × β)) (k : String) (x : β) :
    ∀ p ∈ mapSet st k x, p ∈ st ∨ p = (k, x) := by
  induction st with
  | nil =>
    intro p hp
    simp only [mapSet, List.mem_singleton] at hp
    exact Or.inr hp
  | cons e rest ih =>
    obtain ⟨k₀, v₀⟩ := e
    intro p hp
    simp only [mapSet] at hp
    split at hp
    · rcases List.mem_cons.mp hp with h | h
      · exact Or.inr h
      · exact Or.inl (List.mem_cons_of_mem _ h)
    · rcases List.mem_cons.mp hp with h | h
      · exact Or.inl (h ▸ List.mem_cons_self _ _)
      · rcases ih p h with h' | h'
        · exact Or.inl (List.mem_cons_of_mem _ h')
        · exact Or.inr h'

/-- Dominance scan at an index holding v decides exactly DomBy: the j = i
exclusion is immaterial because Compare of a clock with itself is Equal. -/
theorem isDominatedAt_iff (values : List VersionedValue) (i : Nat) (v : VersionedValue)
    (hwv : vcWF v.version) (hv : values[i]? = some v) :
    isDominatedAt values i v = true ↔ DomBy values v := by
  rw [isDominatedAt, List.any_eq_true]
  constructor
  · rintro ⟨⟨j, u⟩, hmem, hj⟩
    simp only [Bool.and_eq_true, bne_iff_ne, beq_iff_eq] at hj
    obtain ⟨hjlen, hju⟩ := List.mem_enum hmem
    exact ⟨u, hju ▸ List.getElem_mem hjlen, hj.2⟩
  · rintro ⟨u, hu, hbu⟩
    obtain ⟨j, hjlen, hju⟩ := List.mem_iff_getElem.mp hu
    by_cases hij : j = i
    · exfalso
      subst hij
      rw [List.getElem?_eq_getElem hjlen] at hv
      cases hv
      rw [hju] at hbu hwv
      rw [vcCompare_self hwv] at hbu
      cases hbu
    · refine ⟨(j, u), ?_, ?_⟩
      · have hje : j < values.enum.length := by
          rw [List.enum_length]; exact hjlen
        have := List.getElem_enum values j hje
        rw [hju] at this
        exact this ▸ List.getElem_mem hje
      · simp only [Bool.and_eq_true, bne_iff_ne, beq_iff_eq]
        exact ⟨hij, hbu⟩

theorem countP_lt_of_witness {α : Type} (p q : α → Bool) (l : List α)
    (himp : ∀ x ∈ l, p x = true → q x = true)
    (x₀ : α) (hx₀ : x₀ ∈ l) (hq : q x₀ = true) (hp : p x₀ = false) :
    l.countP p < l.countP q := by
  induction l with
  | nil => cases hx₀
  | cons a t ih =>
    rw [List.countP_cons, List.countP_cons]
    rcases List.mem_cons.mp hx₀ with h | h
    · subst h
      have hle : t.countP p ≤ t.countP q :=
        List.countP_mono_left (fun x hx => himp x (List.mem_cons_of_mem _ hx))
      rw [hp, hq]
      simp
      omega
    · have hlt := ih (fun x hx => himp x (List.mem_cons_of_mem _ hx)) h
      have hhead : (if p a = true then 1 else 0) ≤ (if q a = true then 1 else 0) := by
        by_cases hpa : p a = true
        · rw [if_pos hpa, if_pos (himp a (List.mem_cons_self _ _) hpa)]
        · rw [if_neg hpa]
          omega
      omega

/-- Finite maximality: over replies whose clocks are well-formed and
positive, every dominated reply is Before some non-dominated reply
(Before is transitive and irreflexive there, and the reply list is
finite). -/
theorem exists_nondominated_above (values : List VersionedValue)
    (hall : ∀ v ∈ values, vcWF v.version ∧ vcPos v.version) :
    ∀ v ∈ values, DomBy values v →
      ∃ u ∈ values, ¬ DomBy values u ∧ vcCompare v.version u.version = .before := by
  have main : ∀ n : Nat, ∀ v ∈ values,
      values.countP (fun u => vcCompare v.version u.version == .before) ≤ n →
      DomBy values v →
      ∃ u ∈ values, ¬ DomBy values u ∧ vcCompare v.version u.version = .before := by
    intro n
    induction n with
    | zero =>
      intro v hv hcnt ⟨u, hu, hbu⟩
      exfalso
      have : 0 < values.countP (fun u => vcCompare v.version u.version == .before) :=
        List.countP_pos_iff.mpr ⟨u, hu, by simp [hbu]⟩
      omega
    | succ n ih =>
      intro v hv hcnt ⟨u₁, hu₁, hb₁⟩
      by_cases hd : DomBy values u₁
      · have hlt : values.countP (fun u => vcCompare u₁.version u.version == .before) <
            values.countP (fun u => vcCompare v.version u.version == .before) := by
          refine countP_lt_of_witness _ _ _ ?_ u₁ hu₁ (by simp [hb₁]) ?_
          · intro x hx hpx
            have hbx : vcCompare u₁.version x.version = .before := by simpa using hpx
            have ht := before_trans (hall v hv).1 (hall u₁ hu₁).1 (hall x hx).1
              (hall v hv).2 (hall u₁ hu₁).2 (hall x hx).2 hb₁ hbx
            simp [ht]
          · have := before_irrefl (hall u₁ hu₁).1
            simp only [beq_eq_false_iff_ne, ne_eq]
            exact this
        obtain ⟨u, hu, hnd, hbu⟩ := ih u₁ hu₁ (by omega) hd
        exact ⟨u, hu, hnd,
          before_trans (hall v hv).1 (hall u₁ hu₁).1 (hall u hu).1
            (hall v hv).2 (hall u₁ hu₁).2 (hall u hu).2 hb₁ hbu⟩
      · exact ⟨u₁, hu₁, hd, hb₁⟩
  intro v hv hdom
  exact main (values.countP (fun u => vcCompare v.version u.version == .before))
    v hv le_rfl hdom

/-- Invariants of the Reconcile loop: winners are exactly the non-dominated
replies up to Equal-deduplication, the stale accumulator holds only
dominated replies, and already-present winners persist. -/
theorem reconLoop_spec (values : List VersionedValue)
    (hall : ∀ v ∈ values, vcWF v.version ∧ vcPos v.version) :
    ∀ (triples : List (Nat × VersionedValue × String)) (ws : List VersionedValue)
      (st : List (String × VersionedValue)),
      (∀ t ∈ triples, values[t.1]? = some t.2.1) →
      (∀ w ∈ ws, w ∈ values ∧ ¬ DomBy values w) →
      (∀ p ∈ st, p.2 ∈ values ∧ DomBy values p.2) →
      List.Pairwise (fun a b => vcEqual b.version a.version = false) ws →
      (∀ w ∈ (reconLoop values triples ws st).winners,
          w ∈ values ∧ ¬ DomBy values w) ∧
      (∀ w ∈ ws, w ∈ (reconLoop values triples ws st).winners) ∧
      (∀ t ∈ triples, ¬ DomBy values t.2.1 →
          ∃ w ∈ (reconLoop values triples ws st).winners,
            vcEqual t.2.1.version w.version = true) ∧
      (∀ p ∈ (reconLoop values triples ws st).stale,
          p.2 ∈ values ∧ DomBy values p.2) ∧
      List.Pairwise (fun a b => vcEqual b.version a.version = false)
        (reconLoop values triples ws st).winners := by
  intro triples
  induction triples with
  | nil =>
    intro ws st _ hws hst hpw
    exact ⟨hws, fun w hw => hw, fun t ht => absurd ht (List.not_mem_nil t), hst, hpw⟩
  | cons t₀ rest ih =>
    obtain ⟨i, v, rid⟩ := t₀
    intro ws st htr hws hst hpw
    have hv : values[i]? = some v := htr _ (List.mem_cons_self _ _)
    have hvmem : v ∈ values := by
      obtain ⟨hlen, hget⟩ := List.getElem?_eq_some.mp hv
      exact hget ▸ List.getElem_mem hlen
    have hwv := (hall v hvmem).1
    have hrest : ∀ t ∈ rest, values[t.1]? = some t.2.1 :=
      fun t ht => htr t (List.mem_cons_of_mem _ ht)
    simp only [reconLoop]
    by_cases hdom : isDominatedAt values i v = true
    · rw [if_pos hdom]
      have hdomP : DomBy values v := (isDominatedAt_iff values i v hwv hv).mp hdom
      have hst' : ∀ p ∈ mapSet st rid v, p.2 ∈ values ∧ DomBy values p.2 := by
        intro p hp
        rcases mem_mapSet st rid v p hp with h | h
        · exact hst p h
        · subst h; exact ⟨hvmem, hdomP⟩
      obtain ⟨o1, o2, o3, o4, o5⟩ := ih ws (mapSet st rid v) hrest hws hst' hpw
      refine ⟨o1, o2, ?_, o4, o5⟩
      intro t ht hnd
      rcases List.mem_cons.mp ht with h | h
      · subst h
        exact absurd hdomP hnd
      · exact o3 t h hnd
    · rw [if_neg hdom]
      have hndom : ¬ DomBy values v :=
        fun hd => hdom ((isDominatedAt_iff values i v hwv hv).mpr hd)
      by_cases hdup : ws.any (fun w => vcEqual v.version w.version) = true
      · rw [if_pos hdup]
        obtain ⟨o1, o2, o3, o4, o5⟩ := ih ws st hrest hws hst hpw
        refine ⟨o1, o2, ?_, o4, o5⟩
        intro t ht hnd
        rcases List.mem_cons.mp ht with h | h
        · obtain ⟨w, hwmem, hwe⟩ := List.any_eq_true.mp hdup
          subst h
          exact ⟨w, o2 w hwmem, hwe⟩
        · exact o3 t h hnd
      · rw [if_neg hdup]
        have hws' : ∀ w ∈ ws ++ [v], w ∈ values ∧ ¬ DomBy values w := by
          intro w hw
          rcases List.mem_append.mp hw with h | h
          · exact hws w h
          · rw [List.mem_singleton] at h
            subst h
            exact ⟨hvmem, hndom⟩
        have hpw' : List.Pairwise (fun a b => vcEqual b.version a.version = false)
            (ws ++ [v]) := by
          rw [List.pairwise_append]
          refine ⟨hpw, List.pairwise_singleton _ _, ?_⟩
          intro a ha b hb
          rw [List.mem_singleton] at hb
          subst hb
          have := List.any_eq_false.mp (Bool.eq_false_iff.mpr hdup) a ha
          simpa using this
        obtain ⟨o1, o2, o3, o4, o5⟩ := ih (ws ++ [v]) st hrest hws' hst hpw'
        refine ⟨o1, fun w hw => o2 w (List.mem_append_left _ hw), ?_, o4, o5⟩
        intro t ht hnd
        rcases List.mem_cons.mp ht with h | h
        · subst h
          exact ⟨v, o2 v (List.mem_append_right _ (List.mem_singleton_self _)),
            vcEqual_refl hwv⟩
        · exact o3 t h hnd

/-- Claim C2, counterexample: with the explicit zero entries the wire format
admits, Before is not transitive — x:0 is Before x:0,z:3, which is Before
z:5, yet x:0 compares Equal (not Before) to z:5 because Equal only reads
the first clock's keys — so the run leaves the stale reply ra strictly
Before no winner: the winner set is exactly z:5 and ra's clock compares
Equal to it. -/
theorem C2_counterexample :
    (Reconcile [⟨[], [("x", 0)], false⟩, ⟨[], [("x", 0), ("z", 3)], false⟩,
        ⟨[], [("z", 5)], false⟩] ["ra", "rb", "rc"]).winners =
      [⟨[], [("z", 5)], false⟩] ∧
    (Reconcile [⟨[], [("x", 0)], false⟩, ⟨[], [("x", 0), ("z", 3)], false⟩,
        ⟨[], [("z", 5)], false⟩] ["ra", "rb", "rc"]).stale =
      [("ra", ⟨[], [("x", 0)], false⟩), ("rb", ⟨[], [("x", 0), ("z", 3)], false⟩)] ∧
    vcCompare [("x", 0)] [("z", 5)] = .equal := by
  exact ⟨by decide, by decide, by decide⟩

/-- Claim C2 (amended): when every reply's clock is well-formed with only
positive counters — no explicit zero entries — the winner set contains
exactly the non-dominated replies deduplicated by Equal clocks, every stale
map entry is strictly Before at least one winner, and the winner set is
empty exactly when the input list is empty. -/
theorem C2_reconcile_maximal (values : List VersionedValue) (replicaIDs : List String)
    (hlen : replicaIDs.length = values.length)
    (hall : ∀ v ∈ values, vcWF v.version ∧ vcPos v.version) :
    (∀ w ∈ (Reconcile values replicaIDs).winners,
      w ∈ values ∧ ∀ u ∈ values, vcCompare w.version u.version ≠ .before) ∧
    (∀ v ∈ values, (∀ u ∈ values, vcCompare v.version u.version ≠ .before) →
      ∃ w ∈ (Reconcile values replicaIDs).winners, vcEqual v.version w.version = true) ∧
    List.Pairwise (fun a b => vcEqual a.version b.version = false ∧
      vcEqual b.version a.version = false) (Reconcile values replicaIDs).winners ∧
    (∀ p ∈ (Reconcile values replicaIDs).stale,
      ∃ w ∈ (Reconcile values replicaIDs).winners,
        vcCompare p.2.version w.version = .before) ∧
    ((Reconcile values replicaIDs).winners = [] ↔ values = []) := by
  by_cases hemp : values = []
  · subst hemp
    have hR : Reconcile [] replicaIDs = ⟨[], []⟩ := by simp [Reconcile]
    rw [hR]
    simp
  · have hlen0 : ¬ (values.length = 0) := by
      simpa [List.length_eq_zero] using hemp
    have hids : ¬ (replicaIDs.length ≠ values.length) := by simp [hlen]
    have hR : Reconcile values replicaIDs =
        reconLoop values (values.zip replicaIDs).enum [] [] := by
      simp only [Reconcile, if_neg hlen0, if_neg hids]
    have hzlen : (values.zip replicaIDs).length = values.length := by
      rw [List.length_zip, hlen, Nat.min_self]
    have htr : ∀ t ∈ (values.zip replicaIDs).enum, values[t.1]? = some t.2.1 := by
      intro t ht
      obtain ⟨i, x⟩ := t
      obtain ⟨hlt, heq⟩ := List.mem_enum ht
      have hiv : i < values.length := hzlen ▸ hlt
      have hx1 : x.1 = values[i] := by rw [heq, List.getElem_zip]
      rw [List.getElem?_eq_getElem hiv]
      simp only
      rw [hx1]
    obtain ⟨o1, o2, o3, o4, o5⟩ := reconLoop_spec values hall
      (values.zip replicaIDs).enum [] [] htr
      (fun w hw => absurd hw (List.not_mem_nil w))
      (fun p hp => absurd hp (List.not_mem_nil p))
      List.Pairwise.nil
    have hcov : ∀ v ∈ values, ¬ DomBy values v →
        ∃ w ∈ (reconLoop values (values.zip replicaIDs).enum [] []).winners,
          vcEqual v.version w.version = true := by
      intro v hv hnd
      obtain ⟨j, hj, hget⟩ := List.mem_iff_getElem.mp hv
      have hjz : j < (values.zip replicaIDs).length := by omega
      have hje : j < (values.zip replicaIDs).enum.length := by
        rw [List.enum_length]; exact hjz
      have hmem : (j, (values.zip replicaIDs)[j]) ∈ (values.zip replicaIDs).enum := by
        have := List.getElem_enum (values.zip replicaIDs) j hje
        exact this ▸ List.getElem_mem hje
      have ht21 : ((values.zip replicaIDs)[j]).1 = v := by
        rw [List.getElem_zip]; exact hget
      have hnd' : ¬ DomBy values ((j, (values.zip replicaIDs)[j]) :
          Nat × VersionedValue × String).2.1 := by
        simpa only [ht21] using hnd
      obtain ⟨w, hww, hwe⟩ := o3 (j, (values.zip replicaIDs)[j]) hmem hnd'
      rw [ht21] at hwe
      exact ⟨w, hww, hwe⟩
    refine ⟨?_, ?_, ?_, ?_, ?_⟩
    · intro w hw
      rw [hR] at hw
      obtain ⟨hwv, hnd⟩ := o1 w hw
      refine ⟨hwv, fun u hu hbu => hnd ⟨u, hu, hbu⟩⟩
    · intro v hv hne
      have hnd : ¬ DomBy values v := by
        rintro ⟨u, hu, hb⟩
        exact hne u hu hb
      rw [hR]
      exact hcov v hv hnd
    · rw [hR]
      refine List.Pairwise.imp_of_mem ?_ o5
      intro a b ha hb hr
      refine ⟨?_, hr⟩
      cases he : vcEqual a.version b.version with
      | false => rfl
      | true =>
        exfalso
        have haw := (o1 a ha).1
        have hbw := (o1 b hb).1
        have := vcEqual_symm (hall a haw).1 (hall b hbw).1 (hall a haw).2 (hall b hbw).2 he
        rw [this] at hr
        cases hr
    · intro p hp
      rw [hR] at hp ⊢
      obtain ⟨hpv, hpd⟩ := o4 p hp
      obtain ⟨u, hu, hund, hbu⟩ := exists_nondominated_above values hall p.2 hpv hpd
      obtain ⟨w, hww, hwe⟩ := hcov u hu hund
      have hwv := (o1 w hww).1
      exact ⟨w, hww, before_of_before_of_equal (hall p.2 hpv).1 (hall u hu).1
        (hall w hwv).1 (hall p.2 hpv).2 (hall u hu).2 (hall w hwv).2 hbu hwe⟩
    · rw [hR]
      refine iff_of_false ?_ hemp
      obtain ⟨v, hv⟩ := List.exists_mem_of_ne_nil values hemp
      by_cases hd : DomBy values v
      · obtain ⟨u, hu, hund, _⟩ := exists_nondominated_above values hall v hv hd
        obtain ⟨w, hww, _⟩ := hcov u hu hund
        intro h0
        rw [h0] at hww
        exact List.not_mem_nil w hww
      · obtain ⟨w, hww, _⟩ := hcov v hv hd
        intro h0
        rw [h0] at hww
        exact List.not_mem_nil w hww

/-- Claim C2, witness: the amended maximality applied to the divergent
read n1:1 versus n1:2 — the stale reply is strictly Before a winner. -/
theorem C2_reconcile_maximal_witness :
    ∃ w ∈ (Reconcile [⟨[120], [("n1", 1)], false⟩, ⟨[121], [("n1", 2)], false⟩]
        ["r1", "r2"]).winners,
      vcCompare (("r1", (⟨[120], [("n1", 1)], false⟩ : VersionedValue)) :
        String × VersionedValue).2.version w.version = .before :=
  (C2_reconcile_maximal [⟨[120], [("n1", 1)], false⟩, ⟨[121], [("n1", 2)], false⟩]
      ["r1", "r2"] (by decide) (by decide)).2.2.2.1
    ("r1", ⟨[120], [("n1", 1)], false⟩) (by decide)

/-! ## Claim C8 -/

theorem contains_iff_mem {l : List String} {x : String} :
    l.contains x = true ↔ x ∈ l := List.elem_iff

/-- Every node stored in the rebuilt id map is keyed by its own id. -/
theorem nodesFold_lookup_id (nodes : List RNode) :
    ∀ (acc : List (String × RNode)),
      (∀ k n, List.lookup k acc = some n → n.id = k) →
      ∀ k n, List.lookup k (nodes.foldl (fun acc n => mapSet acc n.id n) acc) = some n →
        n.id = k := by
  induction nodes with
  | nil => intro acc hacc; exact hacc
  | cons m t ih =>
    intro acc hacc
    simp only [List.foldl_cons]
    refine ih (mapSet acc m.id m) ?_
    intro k n hl
    rw [lookup_mapSet] at hl
    split at hl
    · rename_i h
      cases hl
      exact h.symm
    · exact hacc k n hl

/-- Folding the id map over nodes whose ids avoid a key leaves that key's
binding unchanged. -/
theorem nodesFold_lookup_skip {id : String} :
    ∀ (nodes : List RNode) (acc : List (String × RNode)),
      (∀ n ∈ nodes, n.id ≠ id) →
      List.lookup id (nodes.foldl (fun acc n => mapSet acc n.id n) acc) =
        List.lookup id acc := by
  intro nodes
  induction nodes with
  | nil => intro acc _; rfl
  | cons m t ih =>
    intro acc hne
    simp only [List.foldl_cons]
    rw [ih (mapSet acc m.id m) (fun n hn => hne n (List.mem_cons_of_mem _ hn))]
    rw [lookup_mapSet]
    rw [if_neg (fun h => hne m (List.mem_cons_self _ _) h.symm)]

/-- With duplicate-free ids, the rebuilt map binds each member under its
id. -/
theorem nodesFold_lookup_mem :
    ∀ (nodes : List RNode), (nodes.map (fun n => n.id)).Nodup →
      ∀ n ∈ nodes, ∀ acc,
        List.lookup n.id (nodes.foldl (fun acc x => mapSet acc x.id x) acc) = some n := by
  intro nodes
  induction nodes with
  | nil => intro _ n hn; cases hn
  | cons m t ih =>
    intro hnd n hn acc
    have hnd' := List.nodup_cons.mp hnd
    simp only [List.foldl_cons]
    rcases List.mem_cons.mp hn with h | h
    · subst h
      rw [nodesFold_lookup_skip t _
        (fun x hx hxe => hnd'.1 (List.mem_map.mpr ⟨x, hx, hxe⟩))]
      rw [lookup_mapSet, if_pos rfl]
    · exact ih hnd'.2 n h (mapSet acc m.id m)

/-- The preference-list walk depends on the id map only through lookups. -/
theorem collectOwners_congr {m₁ m₂ : List (String × RNode)}
    (h : ∀ id, List.lookup id m₁ = List.lookup id m₂) (k : Nat) :
    ∀ (L : List Vnode) (seen : List String) (res : List RNode),
      collectOwners m₁ k L seen res = collectOwners m₂ k L seen res := by
  intro L
  induction L with
  | nil => intro seen res; rfl
  | cons v rest ih =>
    intro seen res
    simp only [collectOwners]
    by_cases h1 : res.length < k
    · rw [if_pos h1, if_pos h1]
      by_cases h2 : seen.contains v.nodeID = true
      · rw [if_pos h2, if_pos h2]
        exact ih seen res
      · rw [if_neg h2, if_neg h2]
        rw [h v.nodeID]
        cases List.lookup v.nodeID m₂ with
        | none => exact ih _ _
        | some n => exact ih _ _
    · rw [if_neg h1, if_neg h1]

/-- The preference-list walk never collects the same physical node twice. -/
theorem collectOwners_nodup {m : List (String × RNode)} {k : Nat}
    (hid : ∀ key n, List.lookup key m = some n → n.id = key) :
    ∀ (L : List Vnode) (seen : List String) (res : List RNode),
      (res.map (fun n => n.id)).Nodup →
      (∀ n ∈ res, n.id ∈ seen) →
      ((collectOwners m k L seen res).map (fun n => n.id)).Nodup := by
  intro L
  induction L with
  | nil => intro seen res h1 _; exact h1
  | cons v rest ih =>
    intro seen res h1 h2
    simp only [collectOwners]
    by_cases hlt : res.length < k
    · rw [if_pos hlt]
      by_cases hc : seen.contains v.nodeID = true
      · rw [if_pos hc]
        exact ih seen res h1 h2
      · rw [if_neg hc]
        have hnsee : v.nodeID ∉ seen := fun h => hc (contains_iff_mem.mpr h)
        cases hl : List.lookup v.nodeID m with
        | none =>
          exact ih (v.nodeID :: seen) res h1
            (fun n hn => List.mem_cons_of_mem _ (h2 n hn))
        | some n =>
          have hnid : n.id = v.nodeID := hid _ _ hl
          refine ih (v.nodeID :: seen) (res ++ [n]) ?_ ?_
          · rw [List.map_append, List.nodup_append]
            refine ⟨h1, List.nodup_singleton _, ?_⟩
            intro a ha hb
            rw [List.map_singleton, List.mem_singleton] at hb
            obtain ⟨x, hx, hxa⟩ := List.mem_map.mp ha
            subst hb
            exact hnsee (hnid ▸ (hxa ▸ h2 x hx))
          · intro n' hn'
            rcases List.mem_append.mp hn' with h | h
            · exact List.mem_cons_of_mem _ (h2 n' h)
            · rw [List.mem_singleton] at h
              subst h
              rw [hnid]
              exact List.mem_cons_self _ _
    · rw [if_neg hlt]
      exact h1

/-- Length of the preference-list walk: bounded by k and by the distinct
new owners the walk can still meet. -/
theorem collectOwners_length {m : List (String × RNode)} {k : Nat} :
    ∀ (L : List Vnode) (seen : List String) (res : List RNode),
      (∀ v ∈ L, (List.lookup v.nodeID m).isSome) →
      res.length ≤ k →
      (collectOwners m k L seen res).length =
        min k (res.length + distinctNew L seen) := by
  intro L
  induction L with
  | nil =>
    intro seen res _ hle
    simp only [collectOwners, distinctNew]
    omega
  | cons v rest ih =>
    intro seen res hsome hle
    simp only [collectOwners, distinctNew]
    by_cases hlt : res.length < k
    · rw [if_pos hlt]
      by_cases hc : seen.contains v.nodeID = true
      · rw [if_pos hc, if_pos hc]
        exact ih seen res (fun x hx => hsome x (List.mem_cons_of_mem _ hx)) hle
      · rw [if_neg hc, if_neg hc]
        cases hl : List.lookup v.nodeID m with
        | none =>
          exfalso
          have := hsome v (List.mem_cons_self _ _)
          rw [hl] at this
          cases this
        | some n =>
          rw [ih (v.nodeID :: seen) (res ++ [n])
            (fun x hx => hsome x (List.mem_cons_of_mem _ hx))
            (by rw [List.length_append]; simpa using hlt)]
          rw [List.length_append]
          simp only [List.length_singleton]
          omega
    · rw [if_neg hlt]
      have : res.length = k := le_antisymm hle (not_lt.mp hlt)
      omega

/-- distinctNew is the cardinality of the unseen owner-id set. -/
theorem distinctNew_eq_card :
    ∀ (L : List Vnode) (seen : List String),
      distinctNew L seen =
        ((L.map (fun v => v.nodeID)).toFinset \ seen.toFinset).card := by
  intro L
  induction L with
  | nil => intro seen; simp [distinctNew]
  | cons v rest ih =>
    intro seen
    simp only [distinctNew, List.map_cons, List.toFinset_cons]
    by_cases hc : seen.contains v.nodeID = true
    · rw [if_pos hc]
      have hmemL : v.nodeID ∈ seen := contains_iff_mem.mp hc
      have hseteq : insert v.nodeID ((rest.map (fun v => v.nodeID)).toFinset) \ seen.toFinset =
          (rest.map (fun v => v.nodeID)).toFinset \ seen.toFinset := by
        ext x
        simp only [Finset.mem_sdiff, Finset.mem_insert, List.mem_toFinset]
        constructor
        · rintro ⟨h | h, hx⟩
          · exact absurd (by rw [h]; exact hmemL) hx
          · exact ⟨h, hx⟩
        · rintro ⟨h, hx⟩
          exact ⟨Or.inr h, hx⟩
      rw [ih seen, hseteq]
    · rw [if_neg hc]
      rw [ih (v.nodeID :: seen)]
      have hset : insert v.nodeID (rest.map (fun v => v.nodeID)).toFinset \ seen.toFinset =
          insert v.nodeID
            ((rest.map (fun v => v.nodeID)).toFinset \ (v.nodeID :: seen).toFinset) := by
        ext x
        simp only [Finset.mem_sdiff, Finset.mem_insert, List.mem_toFinset, List.mem_cons]
        constructor
        · rintro ⟨h | h, hx⟩
          · exact Or.inl h
          · by_cases hxv : x = v.nodeID
            · exact Or.inl hxv
            · exact Or.inr ⟨h, fun hh => hh.elim hxv hx⟩
        · rintro (h | ⟨h, hx⟩)
          · subst h
            exact ⟨Or.inl rfl, fun hs => hc (contains_iff_mem.mpr hs)⟩
          · exact ⟨Or.inr h, fun hs => hx (Or.inr hs)⟩
      rw [hset]
      rw [Finset.card_insert_of_not_mem (by
        intro hmem
        rw [Finset.mem_sdiff] at hmem
        exact hmem.2 (by simp))]
      omega

/-- The owner ids carried by the generated vnodes are exactly the member
ids. -/
theorem vnodeIds_toFinset (vn : Nat) (hvn : vn ≠ 0) (nodes : List RNode) :
    ((nodes.flatMap (genVnodes vn)).map (fun v => v.nodeID)).toFinset =
      (nodes.map (fun n => n.id)).toFinset := by
  ext x
  simp only [List.mem_toFinset, List.mem_map, List.mem_flatMap]
  constructor
  · rintro ⟨v, ⟨n, hn, hv⟩, hx⟩
    have hvid : v.nodeID = n.id := by
      simp only [genVnodes, List.mem_map] at hv
      obtain ⟨i, _, rfl⟩ := hv
      rfl
    exact ⟨n, hn, by rw [← hx, hvid]⟩
  · rintro ⟨n, hn, rfl⟩
    refine ⟨⟨fnv32a (n.id ++ "-vnode-" ++ toString 0), n.id⟩, ⟨n, hn, ?_⟩, rfl⟩
    simp only [genVnodes, List.mem_map]
    exact ⟨0, by simpa using Nat.pos_of_ne_zero hvn, rfl⟩

/-- With pairwise-distinct vnode hashes the sorted vnode sequence is the
same for any input order of the member set. -/
theorem setNodes_vnodes_perm_eq (vn : Nat) {l₁ l₂ : List RNode} (hp : l₁.Perm l₂)
    (hh : ((l₁.flatMap (genVnodes vn)).map (fun vd => vd.hash)).Nodup) :
    (l₁.flatMap (genVnodes vn)).mergeSort (fun a b => a.hash ≤ b.hash) =
      (l₂.flatMap (genVnodes vn)).mergeSort (fun a b => a.hash ≤ b.hash) := by
  have htrans : ∀ (a b c : Vnode), (decide (a.hash ≤ b.hash)) = true →
      (decide (b.hash ≤ c.hash)) = true → (decide (a.hash ≤ c.hash)) = true := by
    intro a b c h1 h2
    simp only [decide_eq_true_eq] at h1 h2 ⊢
    omega
  have htotal : ∀ (a b : Vnode),
      ((decide (a.hash ≤ b.hash)) || (decide (b.hash ≤ a.hash))) = true := by
    intro a b
    rcases Nat.le_total a.hash b.hash with h | h <;> simp [h]
  have hAB : (l₁.flatMap (genVnodes vn)).Perm (l₂.flatMap (genVnodes vn)) :=
    List.Perm.flatMap_right _ hp
  have hperm : ((l₁.flatMap (genVnodes vn)).mergeSort
        (fun a b => a.hash ≤ b.hash)).Perm
      ((l₂.flatMap (genVnodes vn)).mergeSort (fun a b => a.hash ≤ b.hash)) :=
    ((List.mergeSort_perm _ _).trans hAB).trans (List.mergeSort_perm _ _).symm
  have strict : ∀ (L : List Vnode), (L.map (fun vd => vd.hash)).Nodup →
      List.Sorted (fun a b => a.hash < b.hash) (L.mergeSort (fun a b => a.hash ≤ b.hash)) := by
    intro L hLn
    have hle := List.sorted_mergeSort htrans htotal L
    have hmnd : ((L.mergeSort (fun a b => a.hash ≤ b.hash)).map
        (fun vd => vd.hash)).Nodup := by
      have hpm := (List.mergeSort_perm L (fun a b => a.hash ≤ b.hash)).map
        (fun vd => vd.hash)
      exact (hpm.nodup_iff).mpr hLn
    have hne : List.Pairwise (fun a b : Vnode => a.hash ≠ b.hash)
        (L.mergeSort (fun a b => a.hash ≤ b.hash)) :=
      List.pairwise_map.mp hmnd
    refine (hle.and hne).imp ?_
    intro a b hab
    have h1 : a.hash ≤ b.hash := by simpa using hab.1
    exact lt_of_le_of_ne h1 hab.2
  have hs1 := strict _ hh
  have hs2 := strict _ ((hAB.map (fun vd => vd.hash)).nodup_iff.mp hh)
  haveI : IsAntisymm Vnode (fun a b => a.hash < b.hash) :=
    ⟨fun a b h1 h2 => absurd h2 (by omega)⟩
  exact List.eq_of_perm_of_sorted hperm hs1 hs2

/-- The preference list depends on the ring only through the sorted vnode
array and the lookups of the id map. -/
theorem preferenceList_congr (r₁ r₂ : GoRing) (hv : r₁.vnodes = r₂.vnodes)
    (hl : ∀ id, List.lookup id r₁.nodes = List.lookup id r₂.nodes)
    (key : String) (k : Nat) :
    PreferenceList r₁ key k = PreferenceList r₂ key k := by
  simp only [PreferenceList, hv]
  by_cases hc : r₂.vnodes.length = 0 ∨ k = 0
  · rw [if_pos hc, if_pos hc]
  · rw [if_neg hc, if_neg hc]
    exact collectOwners_congr hl k _ _ _

/-- Claim C8: the preference list of a ring built from a member set with
duplicate-free ids repeats no physical node and has length min(k, number
of members), for every key and every k; and two rings built with the same
vnodes-per-node from the same member set, in any order, yield identical
preference lists for every key — stated under pairwise-distinct generated
vnode hashes, since on a 32-bit hash collision between two members' vnodes
the unstable sort of the source leaves the tie order, and hence the walk,
unspecified. -/
theorem C8_preference_list (v : Int) (nodes : List RNode) (key : String) (k : Nat)
    (hnodup : (nodes.map (fun n => n.id)).Nodup) :
    ((PreferenceList (buildRing v nodes) key k).map (fun n => n.id)).Nodup ∧
    (PreferenceList (buildRing v nodes) key k).length = min k nodes.length ∧
    (∀ nodes', nodes.Perm nodes' →
      ((nodes.flatMap (genVnodes (NewRing v).vnodesPerNode)).map
        (fun vd => vd.hash)).Nodup →
      PreferenceList (buildRing v nodes) key k =
        PreferenceList (buildRing v nodes') key k) := by
  have hvn : (NewRing v).vnodesPerNode ≠ 0 := by
    simp only [NewRing]
    split
    · omega
    · rename_i h
      omega
  have hbr_v : (buildRing v nodes).vnodes =
      (nodes.flatMap (genVnodes (NewRing v).vnodesPerNode)).mergeSort
        (fun a b => a.hash ≤ b.hash) := rfl
  have hbr_n : (buildRing v nodes).nodes =
      nodes.foldl (fun acc n => mapSet acc n.id n) [] := rfl
  have hid : ∀ key' n, List.lookup key' (buildRing v nodes).nodes = some n →
      n.id = key' := by
    rw [hbr_n]
    exact nodesFold_lookup_id nodes []
      (fun k n h => by simp [List.lookup] at h)
  refine ⟨?_, ?_, ?_⟩
  · simp only [PreferenceList]
    by_cases hc : (buildRing v nodes).vnodes.length = 0 ∨ k = 0
    · rw [if_pos hc]
      simp
    · rw [if_neg hc]
      exact collectOwners_nodup hid _ _ _ (by simp) (by simp)
  · by_cases hk : k = 0
    · subst hk
      simp [PreferenceList]
    · by_cases hz : (buildRing v nodes).vnodes.length = 0
      · have hA : (nodes.flatMap (genVnodes (NewRing v).vnodesPerNode)).length = 0 := by
          have hpl := (List.mergeSort_perm
            (nodes.flatMap (genVnodes (NewRing v).vnodesPerNode))
            (fun a b => a.hash ≤ b.hash)).length_eq
          rw [hbr_v] at hz
          omega
        have hnodes : nodes = [] := by
          cases hnn : nodes with
          | nil => rfl
          | cons n t =>
            exfalso
            have hmem : (⟨fnv32a (n.id ++ "-vnode-" ++ toString 0), n.id⟩ : Vnode) ∈
                nodes.flatMap (genVnodes (NewRing v).vnodesPerNode) := by
              rw [hnn]
              refine List.mem_flatMap.mpr ⟨n, List.mem_cons_self _ _, ?_⟩
              simp only [genVnodes]
              exact List.mem_map.mpr ⟨0, by simpa using Nat.pos_of_ne_zero hvn, rfl⟩
            rw [List.length_eq_zero] at hA
            rw [hA] at hmem
            exact List.not_mem_nil _ hmem
        simp only [PreferenceList]
        rw [if_pos (Or.inl hz), hnodes]
        simp
      · have hgen : ∀ idx : Nat,
            (collectOwners (buildRing v nodes).nodes k
              ((buildRing v nodes).vnodes.rotate idx) [] []).length =
              min k nodes.length := by
          intro idx
          have hsome : ∀ vd ∈ (buildRing v nodes).vnodes.rotate idx,
              (List.lookup vd.nodeID (buildRing v nodes).nodes).isSome := by
            intro vd hvd
            rw [List.mem_rotate] at hvd
            have hmem : vd ∈ nodes.flatMap (genVnodes (NewRing v).vnodesPerNode) := by
              rw [hbr_v] at hvd
              exact (List.mergeSort_perm _ _).subset hvd
            obtain ⟨n, hn, hgen'⟩ := List.mem_flatMap.mp hmem
            have hvid : vd.nodeID = n.id := by
              simp only [genVnodes, List.mem_map] at hgen'
              obtain ⟨i, _, rfl⟩ := hgen'
              rfl
            rw [hbr_n, hvid, nodesFold_lookup_mem nodes hnodup n hn []]
            rfl
          rw [collectOwners_length _ [] [] hsome (Nat.zero_le k)]
          have hd : distinctNew ((buildRing v nodes).vnodes.rotate idx) [] =
              nodes.length := by
            rw [distinctNew_eq_card]
            have hp1 : ((((buildRing v nodes).vnodes.rotate idx).map
                (fun vd => vd.nodeID))).Perm
                ((nodes.flatMap (genVnodes (NewRing v).vnodesPerNode)).map
                  (fun vd => vd.nodeID)) := by
              refine List.Perm.map _ ?_
              exact (List.rotate_perm _ _).trans
                (by rw [hbr_v]; exact List.mergeSort_perm _ _)
            rw [List.toFinset_eq_of_perm _ _ hp1, List.toFinset_nil,
              Finset.sdiff_empty, vnodeIds_toFinset _ hvn nodes,
              List.toFinset_card_of_nodup hnodup, List.length_map]
          rw [hd]
          simp
        simp only [PreferenceList]
        rw [if_neg (by push_neg; exact ⟨hz, hk⟩)]
        exact hgen _
  · intro nodes' hp hh
    have hbr_v' : (buildRing v nodes').vnodes =
        (nodes'.flatMap (genVnodes (NewRing v).vnodesPerNode)).mergeSort
          (fun a b => a.hash ≤ b.hash) := rfl
    have hbr_n' : (buildRing v nodes').nodes =
        nodes'.foldl (fun acc n => mapSet acc n.id n) [] := rfl
    have hveq : (buildRing v nodes).vnodes = (buildRing v nodes').vnodes := by
      rw [hbr_v, hbr_v']
      exact setNodes_vnodes_perm_eq _ hp hh
    have hnodup' : (nodes'.map (fun n => n.id)).Nodup :=
      (hp.map _).nodup_iff.mp hnodup
    have hlook : ∀ id, List.lookup id (buildRing v nodes).nodes =
        List.lookup id (buildRing v nodes').nodes := by
      intro id
      rw [hbr_n, hbr_n']
      by_cases hex : ∃ n ∈ nodes, n.id = id
      · obtain ⟨n, hn, rfl⟩ := hex
        rw [nodesFold_lookup_mem nodes hnodup n hn [],
          nodesFold_lookup_mem nodes' hnodup' n (hp.subset hn) []]
      · push_neg at hex
        rw [nodesFold_lookup_skip nodes [] (fun n hn => hex n hn),
          nodesFold_lookup_skip nodes' [] (fun n hn => hex n (hp.symm.subset hn))]
    exact preferenceList_congr _ _ hveq hlook key k

/-- Claim C8, witness: a two-node ring built in either member order gives
the same preference list for key k. -/
theorem C8_preference_list_witness :
    PreferenceList (buildRing 2 [⟨"n1", "a1"⟩, ⟨"n2", "a2"⟩]) "k" 2 =
      PreferenceList (buildRing 2 [⟨"n2", "a2"⟩, ⟨"n1", "a1"⟩]) "k" 2 :=
  (C8_preference_list 2 [⟨"n1", "a1"⟩, ⟨"n2", "a2"⟩] "k" 2 (by decide)).2.2
    [⟨"n2", "a2"⟩, ⟨"n1", "a1"⟩] (List.Perm.swap _ _ _) (by decide)

end KV
